import Mathlib

/-!
# Verification of `scripts/fetch_data.py` (tcg-price-oracle-data)

A shallow embedding of the dataset exporter: two BigQuery queries whose rows
are wrapped in a `{last_updated, record_count, data}` envelope and written as
indented JSON via `json.dump(payload, fh, indent=2, cls=_BQEncoder)`.

Modelling conventions, stated once:

* Machine text is `List Char` / `String` over Unicode scalar values, exactly
  as Python 3 strings (minus lone surrogates, which the program never
  produces).
* A Python `float` is represented by its canonical `repr` token (the shortest
  decimal string that round-trips through the IEEE-754 double, which is what
  `json.dump` emits and what `repr(float(tok))` reproduces); the special
  values are the tokens `"inf"`, `"-inf"`, `"nan"`.  `float(Decimal(...))`
  is modelled by genuine round-to-nearest-even double rounding over exact
  rationals followed by shortest-representation formatting (`pyFloat`).
* Exact rational arithmetic is done with an unnormalised fraction type `Q`
  (integer numerator, positive natural denominator) so that every definition
  evaluates inside the kernel.
-/

/- ## Decimal digit strings -/

/-- One decimal digit `n < 10` as a character. -/
def digitChar0 (n : Nat) : Char := Char.ofNat (48 + n)

/-- Fuelled decimal printer, most significant digit first. -/
def natToCharsF : Nat → Nat → List Char
  | 0, _ => []
  | f + 1, n => if n < 10 then [digitChar0 n] else natToCharsF f (n / 10) ++ [digitChar0 (n % 10)]

/-- Decimal representation of a natural number, e.g. `natToChars 125 = ['1','2','5']`.
This is the digit printer used by `repr`/`json.dump` for `int` values. -/
def natToChars (n : Nat) : List Char := natToCharsF (n + 1) n

/-- Numeric value of a list of decimal digit characters. -/
def natVal (l : List Char) : Nat := l.foldl (fun a c => 10 * a + (c.toNat - 48)) 0

def isDigit (c : Char) : Bool := 48 ≤ c.toNat && c.toNat ≤ 57

theorem digitChar0_toNat {n : Nat} (h : n < 10) : (digitChar0 n).toNat = 48 + n := by
  interval_cases n <;> rfl

theorem isDigit_digitChar0 {n : Nat} (h : n < 10) : isDigit (digitChar0 n) = true := by
  interval_cases n <;> rfl

theorem natVal_append_digit (l : List Char) (c : Char) :
    natVal (l ++ [c]) = 10 * natVal l + (c.toNat - 48) := by
  simp [natVal, List.foldl_append]

theorem natToCharsF_ok : ∀ f n, n < f →
    natVal (natToCharsF f n) = n ∧ natToCharsF f n ≠ [] ∧
      ∀ c ∈ natToCharsF f n, isDigit c = true := by
  intro f
  induction f with
  | zero => intro n hn; omega
  | succ f ih =>
    intro n hn
    by_cases h : n < 10
    · refine ⟨?_, ?_, ?_⟩
      · simp [natToCharsF, h, natVal, digitChar0_toNat h]
      · simp [natToCharsF, h]
      · intro c hc
        simp [natToCharsF, h] at hc
        subst hc
        exact isDigit_digitChar0 h
    · have h10 : n / 10 < f := by omega
      obtain ⟨h1, h2, h3⟩ := ih (n / 10) h10
      have hm : n % 10 < 10 := by omega
      refine ⟨?_, ?_, ?_⟩
      · simp only [natToCharsF, if_neg h]
        rw [natVal_append_digit, h1, digitChar0_toNat hm]
        omega
      · simp [natToCharsF, h]
      · intro c hc
        simp only [natToCharsF, if_neg h, List.mem_append, List.mem_singleton] at hc
        rcases hc with hc | hc
        · exact h3 c hc
        · subst hc; exact isDigit_digitChar0 hm

theorem natVal_natToChars (n : Nat) : natVal (natToChars n) = n :=
  (natToCharsF_ok (n + 1) n (by omega)).1

theorem natToChars_ne_nil (n : Nat) : natToChars n ≠ [] :=
  (natToCharsF_ok (n + 1) n (by omega)).2.1

theorem natToChars_digits (n : Nat) : ∀ c ∈ natToChars n, isDigit c = true :=
  (natToCharsF_ok (n + 1) n (by omega)).2.2

/- ## Digit scanning -/

/-- Split a character list into its maximal leading run of decimal digits and the rest. -/
def takeDigits : List Char → List Char × List Char
  | [] => ([], [])
  | c :: t =>
    if isDigit c then
      let p := takeDigits t
      (c :: p.1, p.2)
    else ([], c :: t)

/-- The head of the list (if any) is not a decimal digit. -/
def noDigitHead : List Char → Prop
  | [] => True
  | c :: _ => isDigit c = false

theorem takeDigits_append (ds rest : List Char) (hds : ∀ c ∈ ds, isDigit c = true)
    (hrest : noDigitHead rest) : takeDigits (ds ++ rest) = (ds, rest) := by
  induction ds with
  | nil =>
    cases rest with
    | nil => rfl
    | cons c t => simp_all [takeDigits, noDigitHead]
  | cons c t ih =>
    have hc : isDigit c = true := hds c (by simp)
    have ht : ∀ x ∈ t, isDigit x = true := fun x hx => hds x (by simp [hx])
    simp [takeDigits, hc, ih ht]

/- ## Whitespace -/

def isWs (c : Char) : Bool := c = ' ' || c = '\n' || c = '\t' || c = '\r'

def skipWs : List Char → List Char
  | [] => []
  | c :: t => if isWs c then skipWs t else c :: t

def spaces (n : Nat) : List Char := List.replicate n ' '

theorem skipWs_spaces (n : Nat) (t : List Char) : skipWs (spaces n ++ t) = skipWs t := by
  induction n with
  | zero => simp [spaces]
  | succ n ih => simpa [spaces, List.replicate_succ, skipWs, isWs] using ih

theorem skipWs_nonws {c : Char} (h : isWs c = false) (t : List Char) :
    skipWs (c :: t) = c :: t := by
  simp [skipWs, h]

/- ## Hexadecimal digits -/

def hexDigitChar (n : Nat) : Char := if n < 10 then Char.ofNat (48 + n) else Char.ofNat (87 + n)

def hex4 (n : Nat) : List Char :=
  [hexDigitChar (n / 4096 % 16), hexDigitChar (n / 256 % 16),
   hexDigitChar (n / 16 % 16), hexDigitChar (n % 16)]

def hexVal? (c : Char) : Option Nat :=
  if 48 ≤ c.toNat ∧ c.toNat ≤ 57 then some (c.toNat - 48)
  else if 97 ≤ c.toNat ∧ c.toNat ≤ 102 then some (c.toNat - 87)
  else if 65 ≤ c.toNat ∧ c.toNat ≤ 70 then some (c.toNat - 55)
  else none

def hexVal4 (a b c d : Char) : Option Nat :=
  match hexVal? a, hexVal? b, hexVal? c, hexVal? d with
  | some x, some y, some z, some w => some (4096 * x + 256 * y + 16 * z + w)
  | _, _, _, _ => none

theorem hexVal?_hexDigitChar {n : Nat} (h : n < 16) : hexVal? (hexDigitChar n) = some n := by
  interval_cases n <;> rfl

theorem hexVal4_hex4 {n : Nat} (h : n < 65536) :
    hexVal4 (hexDigitChar (n / 4096 % 16)) (hexDigitChar (n / 256 % 16))
      (hexDigitChar (n / 16 % 16)) (hexDigitChar (n % 16)) = some n := by
  rw [hexVal4, hexVal?_hexDigitChar (by omega), hexVal?_hexDigitChar (by omega),
    hexVal?_hexDigitChar (by omega), hexVal?_hexDigitChar (by omega)]
  simp only [Option.some.injEq]
  omega

/- ## JSON string escaping -/

/-- `json.dump`'s escaping of one character (CPython `py_encode_basestring_ascii`,
the `ensure_ascii=True` default used by `write_json`): `"` and `\` get a
backslash escape, the five controls with short forms use them, all other
characters outside `0x20..0x7e` become `\uXXXX` (a surrogate pair for
codepoints above `0xFFFF`), everything else is emitted as-is. -/
def escChar (c : Char) : List Char :=
  if c = '"' then ['\\', '"']
  else if c = '\\' then ['\\', '\\']
  else if c.toNat = 8 then ['\\', 'b']
  else if c.toNat = 9 then ['\\', 't']
  else if c.toNat = 10 then ['\\', 'n']
  else if c.toNat = 12 then ['\\', 'f']
  else if c.toNat = 13 then ['\\', 'r']
  else if 32 ≤ c.toNat ∧ c.toNat ≤ 126 then [c]
  else if c.toNat < 65536 then '\\' :: 'u' :: hex4 c.toNat
  else ('\\' :: 'u' :: hex4 (55296 + (c.toNat - 65536) / 1024)) ++
       ('\\' :: 'u' :: hex4 (56320 + (c.toNat - 65536) % 1024))

def escStr : List Char → List Char
  | [] => []
  | c :: t => escChar c ++ escStr t

/-- Decode one escape sequence of a JSON string body (the input starts just
after the backslash).  Returns the decoded character and the remaining input.
Mirrors CPython's `py_scanstring`: the two-character escapes, and `\uXXXX`
with surrogate-pair combination.  A lone surrogate escape is rejected (CPython
would produce a surrogate `str` character - Lean `Char` cannot hold one and
the dumper never emits one). -/
def readEsc : List Char → Option (Char × List Char)
  | [] => none
  | e :: rest2 =>
    if e = '"' then some ('"', rest2)
    else if e = '\\' then some ('\\', rest2)
    else if e = '/' then some ('/', rest2)
    else if e = 'b' then some (Char.ofNat 8, rest2)
    else if e = 'f' then some (Char.ofNat 12, rest2)
    else if e = 'n' then some (Char.ofNat 10, rest2)
    else if e = 'r' then some (Char.ofNat 13, rest2)
    else if e = 't' then some (Char.ofNat 9, rest2)
    else if e = 'u' then
      match rest2 with
      | a :: b :: c2 :: d :: rest3 =>
        match hexVal4 a b c2 d with
        | none => none
        | some n =>
          if 55296 ≤ n ∧ n < 56320 then
            match rest3 with
            | x :: y :: a2 :: b2 :: c3 :: d2 :: rest4 =>
              if x = '\\' then
                if y = 'u' then
                  match hexVal4 a2 b2 c3 d2 with
                  | none => none
                  | some m =>
                    if 56320 ≤ m ∧ m < 57344 then
                      some (Char.ofNat (65536 + (n - 55296) * 1024 + (m - 56320)), rest4)
                    else none
                else none
              else none
            | _ => none
          else if 56320 ≤ n ∧ n < 57344 then none
          else some (Char.ofNat n, rest3)
      | _ => none
    else none

/-- Scan the body of a JSON string (after the opening quote), undoing escapes;
returns the decoded characters and the input after the closing quote.  Mirrors
CPython's `py_scanstring` in strict mode (raw control characters rejected).
The fuel argument only makes the recursion structural; one unit is spent per
decoded character, so any fuel above the input length is enough. -/
def parseStrBodyF : Nat → List Char → Option (List Char × List Char)
  | 0, _ => none
  | f + 1, cs =>
    match cs with
    | [] => none
    | c :: rest =>
      if c = '"' then some ([], rest)
      else if c = '\\' then
        match readEsc rest with
        | none => none
        | some (ch, rest2) => (parseStrBodyF f rest2).map fun p => (ch :: p.1, p.2)
      else if c.toNat < 32 then none
      else (parseStrBodyF f rest).map fun p => (c :: p.1, p.2)

/-- JSON string-body scanner with enough fuel for its input. -/
def parseStr (cs : List Char) : Option (List Char × List Char) :=
  parseStrBodyF (cs.length + 1) cs

theorem char_toNat_lt (c : Char) : c.toNat < 1114112 := by
  have h := c.valid
  have e : c.toNat = c.val.toNat := rfl
  rcases h with h | ⟨h1, h2⟩ <;> omega

theorem char_not_surrogate (c : Char) : ¬ (55296 ≤ c.toNat ∧ c.toNat < 57344) := by
  have h := c.valid
  have e : c.toNat = c.val.toNat := rfl
  rcases h with h | ⟨h1, h2⟩ <;> omega

theorem readEsc_u_single {n : Nat} (t : List Char) (h16 : n < 65536)
    (hs : ¬ (55296 ≤ n ∧ n < 57344)) :
    readEsc ('u' :: (hex4 n ++ t)) = some (Char.ofNat n, t) := by
  have hn1 : ¬ (55296 ≤ n ∧ n < 56320) := by omega
  have hn2 : ¬ (56320 ≤ n ∧ n < 57344) := by omega
  simp only [hex4, List.cons_append, List.nil_append]
  simp only [readEsc]
  rw [hexVal4_hex4 h16]
  simp [hn1, hn2]

theorem readEsc_u_pair {hi lo : Nat} (t : List Char)
    (hhi : 55296 ≤ hi ∧ hi < 56320) (hlo : 56320 ≤ lo ∧ lo < 57344) :
    readEsc ('u' :: (hex4 hi ++ ('\\' :: 'u' :: (hex4 lo ++ t)))) =
      some (Char.ofNat (65536 + (hi - 55296) * 1024 + (lo - 56320)), t) := by
  have hhi16 : hi < 65536 := by omega
  have hlo16 : lo < 65536 := by omega
  simp only [hex4, List.cons_append, List.nil_append]
  simp only [readEsc]
  rw [hexVal4_hex4 hhi16]
  simp only [if_pos hhi]
  norm_num
  rw [hexVal4_hex4 hlo16]
  simp [hlo]

theorem parseStrBodyF_esc (f : Nat) (r : List Char) :
    parseStrBodyF (f + 1) ('\\' :: r) =
      match readEsc r with
      | none => none
      | some (ch, rest2) => (parseStrBodyF f rest2).map fun p => (ch :: p.1, p.2) := rfl

theorem parseStrBodyF_plain (f : Nat) {c : Char} (r : List Char)
    (h1 : ¬ c = '"') (h2 : ¬ c = '\\') (h3 : 32 ≤ c.toNat) :
    parseStrBodyF (f + 1) (c :: r) = (parseStrBodyF f r).map fun p => (c :: p.1, p.2) := by
  have h3' : ¬ (c.toNat < 32) := by omega
  simp only [parseStrBodyF]
  rw [if_neg h1, if_neg h2, if_neg h3']

theorem parseStrBodyF_escChar (f : Nat) (c : Char) (t : List Char) :
    parseStrBodyF (f + 1) (escChar c ++ t) =
      (parseStrBodyF f t).map fun p => (c :: p.1, p.2) := by
  by_cases h1 : c = '"'
  · subst h1; rfl
  by_cases h2 : c = '\\'
  · subst h2; rfl
  by_cases h3 : c.toNat = 8
  · have hc : c = Char.ofNat 8 := by rw [← Char.ofNat_toNat c, h3]
    subst hc; rfl
  by_cases h4 : c.toNat = 9
  · have hc : c = Char.ofNat 9 := by rw [← Char.ofNat_toNat c, h4]
    subst hc; rfl
  by_cases h5 : c.toNat = 10
  · have hc : c = Char.ofNat 10 := by rw [← Char.ofNat_toNat c, h5]
    subst hc; rfl
  by_cases h6 : c.toNat = 12
  · have hc : c = Char.ofNat 12 := by rw [← Char.ofNat_toNat c, h6]
    subst hc; rfl
  by_cases h7 : c.toNat = 13
  · have hc : c = Char.ofNat 13 := by rw [← Char.ofNat_toNat c, h7]
    subst hc; rfl
  by_cases h8 : 32 ≤ c.toNat ∧ c.toNat ≤ 126
  · have e : escChar c = [c] := by
      simp [escChar, h1, h2, h3, h4, h5, h6, h7, h8]
    rw [e, List.singleton_append, parseStrBodyF_plain f t h1 h2 h8.1]
  by_cases h9 : c.toNat < 65536
  · have e : escChar c = '\\' :: 'u' :: hex4 c.toNat := by
      simp [escChar, h1, h2, h3, h4, h5, h6, h7, h8, h9]
    have hs := char_not_surrogate c
    rw [e]
    have e2 : ('\\' :: 'u' :: hex4 c.toNat) ++ t = '\\' :: ('u' :: (hex4 c.toNat ++ t)) := by
      simp
    rw [e2, parseStrBodyF_esc, readEsc_u_single t h9 hs, Char.ofNat_toNat]
  · -- surrogate-pair case: c.toNat ≥ 65536
    have hlt := char_toNat_lt c
    have e : escChar c =
        ('\\' :: 'u' :: hex4 (55296 + (c.toNat - 65536) / 1024)) ++
        ('\\' :: 'u' :: hex4 (56320 + (c.toNat - 65536) % 1024)) := by
      simp [escChar, h1, h2, h3, h4, h5, h6, h7, h8, h9]
    rw [e]
    set hi := 55296 + (c.toNat - 65536) / 1024 with hhi
    set lo := 56320 + (c.toNat - 65536) % 1024 with hlo
    have hyes : 55296 ≤ hi ∧ hi < 56320 := by
      constructor
      · omega
      · have : (c.toNat - 65536) / 1024 < 1024 := by omega
        omega
    have hyes2 : 56320 ≤ lo ∧ lo < 57344 := by omega
    have e2 : (('\\' :: 'u' :: hex4 hi) ++ ('\\' :: 'u' :: hex4 lo)) ++ t =
        '\\' :: ('u' :: (hex4 hi ++ ('\\' :: 'u' :: (hex4 lo ++ t)))) := by
      simp
    rw [e2, parseStrBodyF_esc, readEsc_u_pair t hyes hyes2]
    have harith : 65536 + (hi - 55296) * 1024 + (lo - 56320) = c.toNat := by
      have := Nat.div_add_mod (c.toNat - 65536) 1024
      omega
    rw [harith, Char.ofNat_toNat]

theorem parseStrBodyF_escStr (l : List Char) : ∀ f t, l.length < f →
    parseStrBodyF f (escStr l ++ ('"' :: t)) = some (l, t) := by
  induction l with
  | nil =>
    intro f t hf
    cases f with
    | zero => omega
    | succ f => rfl
  | cons c l ih =>
    intro f t hf
    cases f with
    | zero => omega
    | succ f =>
      rw [escStr, List.append_assoc, parseStrBodyF_escChar]
      rw [ih f t (by simp only [List.length_cons] at hf; omega)]
      rfl

theorem escChar_length_pos (c : Char) : 1 ≤ (escChar c).length := by
  rw [escChar]
  repeat' split
  all_goals simp [hex4]

theorem escStr_length_ge (l : List Char) : l.length ≤ (escStr l).length := by
  induction l with
  | nil => simp [escStr]
  | cons c l ih =>
    rw [escStr, List.length_append, List.length_cons]
    have := escChar_length_pos c
    omega

theorem parseStr_escStr (l t : List Char) :
    parseStr (escStr l ++ ('"' :: t)) = some (l, t) := by
  rw [parseStr]
  apply parseStrBodyF_escStr
  have := escStr_length_ge l
  simp only [List.length_append, List.length_cons]
  omega

/- ## JSON number tokens -/

/-- Parts of a JSON number token: sign, integer digits, fractional part
(including the dot), exponent part (including the `e`/`E` and optional sign),
and the remaining input. -/
structure NumParts where
  neg : Bool
  ip : List Char
  fp : List Char
  ep : List Char
  rest : List Char

/-- The token text a `NumParts` was scanned from. -/
def numToken (p : NumParts) : List Char :=
  (if p.neg then ['-'] else []) ++ p.ip ++ p.fp ++ p.ep

def scanFrac : List Char → Option (List Char × List Char)
  | [] => some ([], [])
  | c :: t =>
    if c = '.' then
      match takeDigits t with
      | ([], _) => none
      | (ds, r) => some ('.' :: ds, r)
    else some ([], c :: t)

def scanExpSign : List Char → List Char × List Char
  | [] => ([], [])
  | c :: u =>
    if c = '+' then (['+'], u)
    else if c = '-' then (['-'], u)
    else ([], c :: u)

def scanExp : List Char → Option (List Char × List Char)
  | [] => some ([], [])
  | c :: t =>
    if c = 'e' ∨ c = 'E' then
      match takeDigits (scanExpSign t).2 with
      | ([], _) => none
      | (ds, r) => some (c :: ((scanExpSign t).1 ++ ds), r)
    else some ([], c :: t)

def scanNumPos (cs : List Char) : Option NumParts :=
  match takeDigits cs with
  | ([], _) => none
  | (ip, r1) =>
    match scanFrac r1 with
    | none => none
    | some (fp, r2) =>
      match scanExp r2 with
      | none => none
      | some (ep, r3) => some ⟨false, ip, fp, ep, r3⟩

/-- Scan a JSON number token (CPython `json` NUMBER_RE: optional minus,
integer digits, optional fraction, optional exponent).  One deliberate
leniency: leading zeros in the integer part are accepted here where the
regex `(0|[1-9]\d*)` rejects them - the dumper never emits them, so every
behaviour proved below is unaffected. -/
def scanNum : List Char → Option NumParts
  | [] => none
  | c :: t =>
    if c = '-' then (scanNumPos t).map fun p => { p with neg := true }
    else scanNumPos (c :: t)

/-- Characters that could extend a number token; a token is only recognised
when followed by end-of-input or a non-extending character. -/
def numExtChar (c : Char) : Bool := isDigit c || c = '.' || c = 'e' || c = 'E' || c = '+' || c = '-'

def numDelim : List Char → Bool
  | [] => true
  | c :: _ => !numExtChar c

/-- Nonempty all-digit character list. -/
def digitsNE (ds : List Char) : Prop := ds ≠ [] ∧ ∀ c ∈ ds, isDigit c = true

/-- Well-formed fractional parts. -/
inductive FracShape : List Char → Prop where
  | empty : FracShape []
  | mk (ds : List Char) (h : digitsNE ds) : FracShape ('.' :: ds)

/-- Well-formed exponent parts. -/
inductive ExpShape : List Char → Prop where
  | empty : ExpShape []
  | mk (ec : Char) (s ds : List Char) (hec : ec = 'e' ∨ ec = 'E')
      (hs : s = [] ∨ s = ['+'] ∨ s = ['-']) (h : digitsNE ds) : ExpShape (ec :: (s ++ ds))

theorem isDigit_iff {c : Char} : isDigit c = true ↔ 48 ≤ c.toNat ∧ c.toNat ≤ 57 := by
  simp [isDigit]

theorem numDelim_head {c : Char} {t : List Char} (h : numDelim (c :: t) = true) :
    isDigit c = false ∧ ¬ c = '.' ∧ ¬ c = 'e' ∧ ¬ c = 'E' ∧ ¬ c = '+' ∧ ¬ c = '-' := by
  simp only [numDelim, numExtChar, Bool.not_eq_true', Bool.or_eq_false_iff] at h
  obtain ⟨⟨⟨⟨⟨h1, h2⟩, h3⟩, h4⟩, h5⟩, h6⟩ := h
  refine ⟨h1, ?_, ?_, ?_, ?_, ?_⟩ <;> simp_all

theorem noDigitHead_of_numDelim {rest : List Char} (h : numDelim rest = true) :
    noDigitHead rest := by
  cases rest with
  | nil => trivial
  | cons c t => exact (numDelim_head h).1

theorem noDigitHead_exp_rest {ep rest : List Char} (hep : ExpShape ep)
    (hrest : numDelim rest = true) : noDigitHead (ep ++ rest) := by
  cases hep with
  | empty => simpa using noDigitHead_of_numDelim hrest
  | mk ec s ds hec hs h =>
    rcases hec with h' | h' <;> subst h' <;> exact rfl

theorem noDigitHead_frac_exp_rest {fp ep rest : List Char} (hfp : FracShape fp)
    (hep : ExpShape ep) (hrest : numDelim rest = true) :
    noDigitHead (fp ++ (ep ++ rest)) := by
  cases hfp with
  | empty => simpa using noDigitHead_exp_rest hep hrest
  | mk ds h => exact rfl

theorem scanFrac_build {fp : List Char} (hfp : FracShape fp) {ep rest : List Char}
    (hep : ExpShape ep) (hrest : numDelim rest = true) :
    scanFrac (fp ++ (ep ++ rest)) = some (fp, ep ++ rest) := by
  cases hfp with
  | empty =>
    simp only [List.nil_append]
    cases hep with
    | empty =>
      simp only [List.nil_append]
      cases rest with
      | nil => rfl
      | cons c t =>
        have hc := (numDelim_head hrest).2.1
        simp [scanFrac, hc]
    | mk ec s ds hec hs h =>
      have hc : ¬ ec = '.' := by rcases hec with h' | h' <;> subst h' <;> decide
      simp [scanFrac, hc]
  | mk ds h =>
    simp only [List.cons_append]
    rw [scanFrac, if_pos rfl,
      takeDigits_append ds (ep ++ rest) h.2 (noDigitHead_exp_rest hep hrest)]
    obtain ⟨d, ds', rfl⟩ : ∃ d ds', ds = d :: ds' := by
      cases ds with
      | nil => exact absurd rfl h.1
      | cons d ds' => exact ⟨d, ds', rfl⟩
    rfl

theorem scanExpSign_build {s : List Char} (hs : s = [] ∨ s = ['+'] ∨ s = ['-'])
    {ds : List Char} (hds : digitsNE ds) (rest : List Char) :
    scanExpSign (s ++ (ds ++ rest)) = (s, ds ++ rest) := by
  rcases hs with h | h | h <;> subst h
  · simp only [List.nil_append]
    obtain ⟨d, ds', rfl⟩ : ∃ d ds', ds = d :: ds' := by
      cases ds with
      | nil => exact absurd rfl hds.1
      | cons d ds' => exact ⟨d, ds', rfl⟩
    have hd := hds.2 d (by simp)
    have h1 : ¬ d = '+' := by
      intro h'; subst h'; exact absurd hd (by decide)
    have h2 : ¬ d = '-' := by
      intro h'; subst h'; exact absurd hd (by decide)
    simp [scanExpSign, h1, h2]
  · rfl
  · rfl

theorem scanExp_build {ep : List Char} (hep : ExpShape ep) {rest : List Char}
    (hrest : numDelim rest = true) : scanExp (ep ++ rest) = some (ep, rest) := by
  cases hep with
  | empty =>
    simp only [List.nil_append]
    cases rest with
    | nil => rfl
    | cons c t =>
      obtain ⟨_, _, he, hE, _, _⟩ := numDelim_head hrest
      have : ¬ (c = 'e' ∨ c = 'E') := by tauto
      simp [scanExp, this]
  | mk ec s ds hec hs h =>
    simp only [List.cons_append, List.append_assoc]
    rw [scanExp, if_pos hec, scanExpSign_build hs h rest,
      takeDigits_append ds rest h.2 (noDigitHead_of_numDelim hrest)]
    obtain ⟨d, ds', rfl⟩ : ∃ d ds', ds = d :: ds' := by
      cases ds with
      | nil => exact absurd rfl h.1
      | cons d ds' => exact ⟨d, ds', rfl⟩
    rfl

theorem scanNumPos_build {ip : List Char} (hip : digitsNE ip) {fp ep rest : List Char}
    (hfp : FracShape fp) (hep : ExpShape ep) (hrest : numDelim rest = true) :
    scanNumPos (ip ++ (fp ++ (ep ++ rest))) = some ⟨false, ip, fp, ep, rest⟩ := by
  rw [scanNumPos,
    takeDigits_append ip (fp ++ (ep ++ rest)) hip.2 (noDigitHead_frac_exp_rest hfp hep hrest)]
  obtain ⟨d, ip', rfl⟩ : ∃ d ip', ip = d :: ip' := by
    cases ip with
    | nil => exact absurd rfl hip.1
    | cons d ip' => exact ⟨d, ip', rfl⟩
  simp only
  rw [scanFrac_build hfp hep hrest]
  simp only
  rw [scanExp_build hep hrest]

theorem scanNum_cons_neg (t : List Char) :
    scanNum ('-' :: t) = (scanNumPos t).map fun p => { p with neg := true } := rfl

theorem scanNum_cons_pos {c : Char} (h : ¬ c = '-') (t : List Char) :
    scanNum (c :: t) = scanNumPos (c :: t) := by
  have e : scanNum (c :: t) =
      if c = '-' then (scanNumPos t).map (fun p => { p with neg := true })
      else scanNumPos (c :: t) := rfl
  rw [e, if_neg h]

theorem scanNum_build {neg : Bool} {ip fp ep rest : List Char} (hip : digitsNE ip)
    (hfp : FracShape fp) (hep : ExpShape ep) (hrest : numDelim rest = true) :
    scanNum (numToken ⟨neg, ip, fp, ep, rest⟩ ++ rest) = some ⟨neg, ip, fp, ep, rest⟩ := by
  obtain ⟨d, ip', rfl⟩ : ∃ d ip', ip = d :: ip' := by
    cases ip with
    | nil => exact absurd rfl hip.1
    | cons d ip' => exact ⟨d, ip', rfl⟩
  have hd := hip.2 d (by simp)
  have hdm : ¬ d = '-' := by
    intro h'; subst h'; exact absurd hd (by decide)
  cases neg with
  | false =>
    have e : numToken ⟨false, d :: ip', fp, ep, rest⟩ ++ rest =
        d :: (ip' ++ (fp ++ (ep ++ rest))) := by
      simp [numToken]
    rw [e, scanNum_cons_pos hdm]
    exact scanNumPos_build hip hfp hep hrest
  | true =>
    have e : numToken ⟨true, d :: ip', fp, ep, rest⟩ ++ rest =
        '-' :: (d :: (ip' ++ (fp ++ (ep ++ rest)))) := by
      simp [numToken]
    rw [e, scanNum_cons_neg]
    have e2 : scanNumPos (d :: (ip' ++ (fp ++ (ep ++ rest)))) =
        some ⟨false, d :: ip', fp, ep, rest⟩ := scanNumPos_build hip hfp hep hrest
    rw [e2]
    rfl

theorem takeDigits_sound : ∀ cs ds r, takeDigits cs = (ds, r) →
    cs = ds ++ r ∧ ∀ c ∈ ds, isDigit c = true := by
  intro cs
  induction cs with
  | nil =>
    intro ds r h
    rw [takeDigits] at h
    cases h
    simp
  | cons c t ih =>
    intro ds r h
    rw [takeDigits] at h
    by_cases hc : isDigit c = true
    · rw [if_pos hc] at h
      cases h
      obtain ⟨h1, h2⟩ := ih (takeDigits t).1 (takeDigits t).2 rfl
      constructor
      · simpa using h1
      · intro x hx
        rcases List.mem_cons.mp hx with hx | hx
        · subst hx; exact hc
        · exact h2 x hx
    · rw [if_neg hc] at h
      cases h
      simp

theorem scanFrac_sound : ∀ cs fp r, scanFrac cs = some (fp, r) →
    cs = fp ++ r ∧ FracShape fp := by
  intro cs fp r h
  cases cs with
  | nil =>
    rw [scanFrac] at h
    cases h
    exact ⟨rfl, FracShape.empty⟩
  | cons c t =>
    rw [scanFrac] at h
    by_cases hc : c = '.'
    · rw [if_pos hc] at h
      subst hc
      rcases htd : takeDigits t with ⟨ds, r2⟩
      rw [htd] at h
      obtain ⟨h1, h2⟩ := takeDigits_sound t ds r2 htd
      cases ds with
      | nil => cases h
      | cons d ds' =>
        cases h
        constructor
        · rw [h1]; simp
        · exact FracShape.mk _ ⟨by simp, h2⟩
    · rw [if_neg hc] at h
      cases h
      exact ⟨rfl, FracShape.empty⟩

theorem scanExpSign_sound : ∀ cs s r, scanExpSign cs = (s, r) →
    cs = s ++ r ∧ (s = [] ∨ s = ['+'] ∨ s = ['-']) := by
  intro cs s r h
  cases cs with
  | nil =>
    rw [scanExpSign] at h
    cases h
    simp
  | cons c t =>
    rw [scanExpSign] at h
    by_cases h1 : c = '+'
    · rw [if_pos h1] at h
      cases h
      subst h1
      simp
    · rw [if_neg h1] at h
      by_cases h2 : c = '-'
      · rw [if_pos h2] at h
        cases h
        subst h2
        simp
      · rw [if_neg h2] at h
        cases h
        simp

theorem scanExp_sound : ∀ cs ep r, scanExp cs = some (ep, r) →
    cs = ep ++ r ∧ ExpShape ep := by
  intro cs ep r h
  cases cs with
  | nil =>
    rw [scanExp] at h
    cases h
    exact ⟨rfl, ExpShape.empty⟩
  | cons c t =>
    rw [scanExp] at h
    by_cases hc : c = 'e' ∨ c = 'E'
    · rw [if_pos hc] at h
      rcases hsg : scanExpSign t with ⟨s, u⟩
      rw [hsg] at h
      dsimp only at h
      obtain ⟨hs1, hs2⟩ := scanExpSign_sound t s u hsg
      rcases htd : takeDigits u with ⟨ds, r2⟩
      rw [htd] at h
      obtain ⟨h1, h2⟩ := takeDigits_sound u ds r2 htd
      cases ds with
      | nil => cases h
      | cons d ds' =>
        cases h
        refine ⟨?_, ExpShape.mk c s _ hc hs2 ⟨by simp, h2⟩⟩
        rw [hs1, h1]
        simp
    · rw [if_neg hc] at h
      cases h
      exact ⟨rfl, ExpShape.empty⟩

theorem scanNumPos_sound : ∀ cs p, scanNumPos cs = some p →
    p.neg = false ∧ cs = p.ip ++ (p.fp ++ (p.ep ++ p.rest)) ∧
      digitsNE p.ip ∧ FracShape p.fp ∧ ExpShape p.ep := by
  intro cs p h
  rw [scanNumPos] at h
  rcases htd : takeDigits cs with ⟨ip, r1⟩
  rw [htd] at h
  obtain ⟨ht1, ht2⟩ := takeDigits_sound cs ip r1 htd
  cases ip with
  | nil => cases h
  | cons d ip' =>
    dsimp only at h
    rcases hf : scanFrac r1 with _ | ⟨fp, r2⟩
    · rw [hf] at h; cases h
    · rw [hf] at h
      dsimp only at h
      obtain ⟨hf1, hf2⟩ := scanFrac_sound _ _ _ hf
      rcases he : scanExp r2 with _ | ⟨ep, r3⟩
      · rw [he] at h; cases h
      · rw [he] at h
        obtain ⟨he1, he2⟩ := scanExp_sound _ _ _ he
        cases h
        refine ⟨rfl, ?_, ⟨by simp, ht2⟩, hf2, he2⟩
        rw [ht1, hf1, he1]

theorem scanNum_sound : ∀ cs p, scanNum cs = some p →
    cs = numToken p ++ p.rest ∧ digitsNE p.ip ∧ FracShape p.fp ∧ ExpShape p.ep := by
  intro cs p h
  cases cs with
  | nil => rw [scanNum] at h; cases h
  | cons c t =>
    by_cases hc : c = '-'
    · subst hc
      rw [scanNum_cons_neg] at h
      rcases hp : scanNumPos t with _ | ⟨q⟩
      · rw [hp] at h; cases h
      · rw [hp] at h
        cases h
        obtain ⟨hq0, hq1, hq2, hq3, hq4⟩ := scanNumPos_sound t q hp
        refine ⟨?_, hq2, hq3, hq4⟩
        simp only [numToken, List.cons_append, List.append_assoc, List.singleton_append,
          if_true]
        rw [hq1]
        simp
    · rw [scanNum_cons_pos hc] at h
      obtain ⟨hq0, hq1, hq2, hq3, hq4⟩ := scanNumPos_sound _ p h
      refine ⟨?_, hq2, hq3, hq4⟩
      rw [numToken, hq0]
      simp only [Bool.false_eq_true, if_false, List.nil_append, List.append_assoc]
      exact hq1

theorem scanNum_again {cs : List Char} {p : NumParts} (h : scanNum cs = some p)
    (hrest : p.rest = []) {rest : List Char} (hr : numDelim rest = true) :
    scanNum (cs ++ rest) = some ⟨p.neg, p.ip, p.fp, p.ep, rest⟩ := by
  obtain ⟨e, hip, hfp, hep⟩ := scanNum_sound cs p h
  rw [e, hrest]
  simp only [List.append_nil]
  have e2 : numToken p = numToken ⟨p.neg, p.ip, p.fp, p.ep, rest⟩ := rfl
  rw [e2]
  exact scanNum_build hip hfp hep hr

/- ## JSON documents -/

mutual
/-- A JSON document as Python's `json` module sees it: exactly the shapes
`json.dump` can emit for this program and `json.loads` can return.  A float
is carried as its canonical `repr` token (see the header comment). -/
inductive JValue : Type where
  | jnull : JValue
  | jbool (b : Bool) : JValue
  | jint (n : Int) : JValue
  | jfloat (r : String) : JValue
  | jstr (s : String) : JValue
  | jarr (items : JItems) : JValue
  | jobj (mems : JMems) : JValue
/-- The elements of a JSON array, in order. -/
inductive JItems : Type where
  | nil : JItems
  | cons (hd : JValue) (tl : JItems) : JItems
/-- The members of a JSON object, in insertion order (CPython dicts and
`json.loads` both preserve it). -/
inductive JMems : Type where
  | nil : JMems
  | cons (k : String) (v : JValue) (tl : JMems) : JMems
end

def JItems.length : JItems → Nat
  | .nil => 0
  | .cons _ tl => tl.length + 1

def JItems.get? : JItems → Nat → Option JValue
  | .nil, _ => none
  | .cons v _, 0 => some v
  | .cons _ tl, n + 1 => tl.get? n

def JMems.lookup : JMems → String → Option JValue
  | .nil, _ => none
  | .cons k v tl, key => if k = key then some v else tl.lookup key

def lbrace : Char := Char.ofNat 123

def rbrace : Char := Char.ofNat 125

/-- The text `json.dump` emits for a float: the stored canonical token, with
the Python spellings of the special values mapped to the JSON constants
(`allow_nan=True` default). -/
def dumpFloatTok (r : String) : List Char :=
  if r = "inf" then "Infinity".data
  else if r = "-inf" then "-Infinity".data
  else if r = "nan" then "NaN".data
  else r.data

/-- `repr` of a Python int. -/
def intChars (n : Int) : List Char :=
  if n < 0 then '-' :: natToChars n.natAbs else natToChars n.natAbs

mutual
/-- The exact text `json.dump(v, fh, indent=2, cls=_BQEncoder)` writes for an
(already encoded) value at indentation level `ind`. -/
def dumpV (ind : Nat) : JValue → List Char
  | .jnull => "null".data
  | .jbool true => "true".data
  | .jbool false => "false".data
  | .jint n => intChars n
  | .jfloat r => dumpFloatTok r
  | .jstr s => '"' :: (escStr s.data ++ ['"'])
  | .jarr .nil => "[]".data
  | .jarr (.cons v tl) =>
    '[' :: ('\n' :: (spaces (ind + 2) ++ (dumpV (ind + 2) v ++ dumpItemsTail (ind + 2) ind tl)))
  | .jobj .nil => [lbrace, rbrace]
  | .jobj (.cons k v tl) =>
    lbrace :: ('\n' :: (spaces (ind + 2) ++ ('"' :: (escStr k.data ++ ('"' :: (':' :: (' ' ::
      (dumpV (ind + 2) v ++ dumpMemsTail (ind + 2) ind tl))))))))
/-- Array items after the first: `,` then newline, indentation and the item;
the final `]` goes on its own line at the enclosing indentation. -/
def dumpItemsTail (eind cind : Nat) : JItems → List Char
  | .nil => '\n' :: (spaces cind ++ [']'])
  | .cons v tl =>
    ',' :: ('\n' :: (spaces eind ++ (dumpV eind v ++ dumpItemsTail eind cind tl)))
/-- Object members after the first, `"key": value` style. -/
def dumpMemsTail (eind cind : Nat) : JMems → List Char
  | .nil => '\n' :: (spaces cind ++ [rbrace])
  | .cons k v tl =>
    ',' :: ('\n' :: (spaces eind ++ ('"' :: (escStr k.data ++ ('"' :: (':' :: (' ' ::
      (dumpV eind v ++ dumpMemsTail eind cind tl))))))))
end

mutual
def sizeV : JValue → Nat
  | .jnull => 1
  | .jbool _ => 1
  | .jint _ => 1
  | .jfloat _ => 1
  | .jstr _ => 1
  | .jarr its => sizeI its + 1
  | .jobj ms => sizeM ms + 1
def sizeI : JItems → Nat
  | .nil => 1
  | .cons v tl => sizeV v + sizeI tl + 1
def sizeM : JMems → Nat
  | .nil => 1
  | .cons _ v tl => sizeV v + sizeM tl + 1
end

/-- A float token the program can actually write: one of the special Python
spellings, or a complete number token with a fractional or exponent part that
the scanner certifies.  Every `repr` of a Python float has this shape. -/
def checkFloatTok (r : String) : Bool :=
  r = "inf" || r = "-inf" || r = "nan" ||
  (match scanNum r.data with
   | some p => p.rest.isEmpty && !(p.fp.isEmpty && p.ep.isEmpty) && decide (numToken p = r.data)
   | none => false)

mutual
/-- Well-formedness: every float token in the document is one the program can
write.  All other leaves are unconstrained. -/
def wfV : JValue → Bool
  | .jnull => true
  | .jbool _ => true
  | .jint _ => true
  | .jfloat r => checkFloatTok r
  | .jstr _ => true
  | .jarr its => wfI its
  | .jobj ms => wfM ms
def wfI : JItems → Bool
  | .nil => true
  | .cons v tl => wfV v && wfI tl
def wfM : JMems → Bool
  | .nil => true
  | .cons _ v tl => wfV v && wfM tl
end

/-- Interpret a scanned number token as `json.loads` does: `int()` when there
is neither fraction nor exponent, else `float()` (kept as its token). -/
def parseNum (cs : List Char) : Option (JValue × List Char) :=
  match scanNum cs with
  | none => none
  | some p =>
    if p.fp.isEmpty && p.ep.isEmpty then
      some (.jint (if p.neg then -(natVal p.ip : Int) else (natVal p.ip : Int)), p.rest)
    else some (.jfloat ⟨numToken p⟩, p.rest)

mutual
/-- Recursive-descent JSON parser mirroring CPython's `json.loads` scanner on
the documents this program writes.  Dispatch is by first non-whitespace
character, as in CPython's `scan_once`.  The fuel only bounds recursion
depth; `sizeV` of the parsed value is always enough. -/
def parseV : Nat → List Char → Option (JValue × List Char)
  | 0, _ => none
  | f + 1, cs =>
    match skipWs cs with
    | [] => none
    | c :: r =>
      if c = 'n' then
        match r with
        | 'u' :: 'l' :: 'l' :: r2 => some (.jnull, r2)
        | _ => none
      else if c = 't' then
        match r with
        | 'r' :: 'u' :: 'e' :: r2 => some (.jbool true, r2)
        | _ => none
      else if c = 'f' then
        match r with
        | 'a' :: 'l' :: 's' :: 'e' :: r2 => some (.jbool false, r2)
        | _ => none
      else if c = 'N' then
        match r with
        | 'a' :: 'N' :: r2 => some (.jfloat "nan", r2)
        | _ => none
      else if c = 'I' then
        match r with
        | 'n' :: 'f' :: 'i' :: 'n' :: 'i' :: 't' :: 'y' :: r2 => some (.jfloat "inf", r2)
        | _ => none
      else if c = '"' then
        match parseStr r with
        | none => none
        | some (l, r2) => some (.jstr ⟨l⟩, r2)
      else if c = '[' then
        match skipWs r with
        | [] => none
        | c2 :: r2 =>
          if c2 = ']' then some (.jarr .nil, r2)
          else (parseItems f (c2 :: r2)).map fun p => (.jarr p.1, p.2)
      else if c = lbrace then
        match skipWs r with
        | [] => none
        | c2 :: r2 =>
          if c2 = rbrace then some (.jobj .nil, r2)
          else (parseMems f (c2 :: r2)).map fun p => (.jobj p.1, p.2)
      else if c = '-' then
        if r.head? = some 'I' then
          match r with
          | 'I' :: 'n' :: 'f' :: 'i' :: 'n' :: 'i' :: 't' :: 'y' :: r2 => some (.jfloat "-inf", r2)
          | _ => none
        else parseNum (c :: r)
      else parseNum (c :: r)
def parseItems : Nat → List Char → Option (JItems × List Char)
  | 0, _ => none
  | f + 1, cs =>
    match parseV f cs with
    | none => none
    | some (v, r) =>
      match skipWs r with
      | [] => none
      | c :: r2 =>
        if c = ',' then (parseItems f r2).map fun p => (.cons v p.1, p.2)
        else if c = ']' then some (.cons v .nil, r2)
        else none
def parseMems : Nat → List Char → Option (JMems × List Char)
  | 0, _ => none
  | f + 1, cs =>
    match skipWs cs with
    | [] => none
    | c0 :: r0 =>
      if c0 = '"' then
        match parseStr r0 with
        | none => none
        | some (kl, r2) =>
          match skipWs r2 with
          | [] => none
          | c1 :: r3 =>
            if c1 = ':' then
              match parseV f r3 with
              | none => none
              | some (v, r4) =>
                match skipWs r4 with
                | [] => none
                | c2 :: r5 =>
                  if c2 = ',' then (parseMems f r5).map fun p => (.cons ⟨kl⟩ v p.1, p.2)
                  else if c2 = rbrace then some (.cons ⟨kl⟩ v .nil, r5)
                  else none
            else none
      else none
end

/-- `json.loads` of a complete document: a value followed only by whitespace. -/
def parseJson (s : String) : Option JValue :=
  match parseV (s.data.length + 1) s.data with
  | none => none
  | some (v, r) => if (skipWs r).isEmpty then some v else none

/-- The full text written by `json.dump(payload, fh, indent=2, cls=_BQEncoder)`
for an encoded payload (top level starts at indentation 0). -/
def dumpJson (v : JValue) : String := ⟨dumpV 0 v⟩

/- ## Parser step lemmas -/

theorem parseV_null (f : Nat) (r : List Char) :
    parseV (f + 1) ('n' :: 'u' :: 'l' :: 'l' :: r) = some (.jnull, r) := rfl

theorem parseV_true (f : Nat) (r : List Char) :
    parseV (f + 1) ('t' :: 'r' :: 'u' :: 'e' :: r) = some (.jbool true, r) := rfl

theorem parseV_false (f : Nat) (r : List Char) :
    parseV (f + 1) ('f' :: 'a' :: 'l' :: 's' :: 'e' :: r) = some (.jbool false, r) := rfl

theorem parseV_nan (f : Nat) (r : List Char) :
    parseV (f + 1) ('N' :: 'a' :: 'N' :: r) = some (.jfloat "nan", r) := rfl

theorem parseV_inf (f : Nat) (r : List Char) :
    parseV (f + 1) ('I' :: 'n' :: 'f' :: 'i' :: 'n' :: 'i' :: 't' :: 'y' :: r) =
      some (.jfloat "inf", r) := rfl

theorem parseV_neginf (f : Nat) (r : List Char) :
    parseV (f + 1) ('-' :: 'I' :: 'n' :: 'f' :: 'i' :: 'n' :: 'i' :: 't' :: 'y' :: r) =
      some (.jfloat "-inf", r) := rfl

theorem parseV_quote (f : Nat) (y : List Char) :
    parseV (f + 1) ('"' :: y) =
      (match parseStr y with
       | none => none
       | some (l, r2) => some (.jstr ⟨l⟩, r2)) := rfl

theorem parseV_lbrack (f : Nat) (y : List Char) :
    parseV (f + 1) ('[' :: y) =
      (match skipWs y with
       | [] => none
       | c2 :: r2 =>
         if c2 = ']' then some (.jarr .nil, r2)
         else (parseItems f (c2 :: r2)).map fun p => (.jarr p.1, p.2)) := rfl

theorem parseV_lbrace (f : Nat) (y : List Char) :
    parseV (f + 1) (lbrace :: y) =
      (match skipWs y with
       | [] => none
       | c2 :: r2 =>
         if c2 = rbrace then some (.jobj .nil, r2)
         else (parseMems f (c2 :: r2)).map fun p => (.jobj p.1, p.2)) := rfl

theorem isWs_eq_false_of_digit {c : Char} (h : isDigit c = true) : isWs c = false := by
  have hb := isDigit_iff.mp h
  rcases hw : isWs c with _ | _
  · rfl
  · exfalso
    simp only [isWs, Bool.or_eq_true, decide_eq_true_eq] at hw
    rcases hw with ((h' | h') | h') | h' <;> subst h' <;> revert hb <;> decide

theorem ne_of_digit {c c' : Char} (h : isDigit c = true) (h' : isDigit c' = false) :
    ¬ c = c' := fun e => by subst e; rw [h] at h'; cases h'

theorem parseV_notWs {c : Char} (hws : isWs c = false)
    (hn : ¬ c = 'n') (ht : ¬ c = 't') (hf : ¬ c = 'f') (hN : ¬ c = 'N') (hI : ¬ c = 'I')
    (hq : ¬ c = '"') (hb : ¬ c = '[') (hbr : ¬ c = lbrace) (hm : ¬ c = '-')
    (f : Nat) (r : List Char) :
    parseV (f + 1) (c :: r) = parseNum (c :: r) := by
  rw [parseV.eq_def]
  dsimp only
  rw [skipWs_nonws hws]
  dsimp only
  rw [if_neg hn, if_neg ht, if_neg hf, if_neg hN, if_neg hI, if_neg hq, if_neg hb,
    if_neg hbr, if_neg hm]

theorem parseV_digit {c : Char} (h : isDigit c = true) (f : Nat) (r : List Char) :
    parseV (f + 1) (c :: r) = parseNum (c :: r) :=
  parseV_notWs (isWs_eq_false_of_digit h)
    (ne_of_digit h (by decide)) (ne_of_digit h (by decide)) (ne_of_digit h (by decide))
    (ne_of_digit h (by decide)) (ne_of_digit h (by decide)) (ne_of_digit h (by decide))
    (ne_of_digit h (by decide)) (ne_of_digit h (by decide)) (ne_of_digit h (by decide)) f r

theorem parseV_minus_num {r : List Char} (h : ¬ r.head? = some 'I') (f : Nat) :
    parseV (f + 1) ('-' :: r) = parseNum ('-' :: r) := by
  rw [parseV.eq_def]
  dsimp only
  rw [skipWs_nonws (by decide)]
  dsimp only
  rw [if_neg (by decide), if_neg (by decide), if_neg (by decide), if_neg (by decide),
    if_neg (by decide), if_neg (by decide), if_neg (by decide), if_neg (by decide),
    if_pos rfl, if_neg h]

/- ## Number round-trips -/

theorem natToChars_cons (m : Nat) : ∃ d ds, natToChars m = d :: ds ∧ isDigit d = true ∧
    ∀ c ∈ ds, isDigit c = true := by
  rcases h : natToChars m with _ | ⟨d, ds⟩
  · exact absurd h (natToChars_ne_nil m)
  · have hall := natToChars_digits m
    rw [h] at hall
    exact ⟨d, ds, rfl, hall d (by simp), fun c hc => hall c (by simp [hc])⟩

theorem parseNum_int (n : Int) {rest : List Char} (hrest : numDelim rest = true) :
    parseNum (intChars n ++ rest) = some (.jint n, rest) := by
  obtain ⟨d, ds, hnd, hd, hds⟩ := natToChars_cons n.natAbs
  have hip : digitsNE (natToChars n.natAbs) := by
    rw [hnd]
    exact ⟨by simp, by
      intro c hc
      rcases List.mem_cons.mp hc with hc | hc
      · subst hc; exact hd
      · exact hds c hc⟩
  by_cases hneg : n < 0
  · have e : intChars n ++ rest =
        numToken ⟨true, natToChars n.natAbs, [], [], rest⟩ ++ rest := by
      simp [intChars, hneg, numToken]
    rw [e, parseNum,
      scanNum_build hip FracShape.empty ExpShape.empty hrest]
    have hval : natVal (natToChars n.natAbs) = n.natAbs := natVal_natToChars _
    dsimp only
    rw [hval, if_pos rfl]
    have hn : -(n.natAbs : Int) = n := by omega
    rw [hn]
    simp
  · have e : intChars n ++ rest =
        numToken ⟨false, natToChars n.natAbs, [], [], rest⟩ ++ rest := by
      simp [intChars, hneg, numToken]
    rw [e, parseNum,
      scanNum_build hip FracShape.empty ExpShape.empty hrest]
    have hval : natVal (natToChars n.natAbs) = n.natAbs := natVal_natToChars _
    dsimp only
    rw [hval, if_neg (by decide : ¬ (false = true))]
    have hn : (n.natAbs : Int) = n := by omega
    rw [hn]
    simp

theorem parseNum_float {r : String} {p : NumParts} (hscan : scanNum r.data = some p)
    (hrest0 : p.rest = []) (hfe : ¬ (p.fp.isEmpty && p.ep.isEmpty) = true)
    (htok : numToken p = r.data) {rest : List Char} (hrest : numDelim rest = true) :
    parseNum (r.data ++ rest) = some (.jfloat r, rest) := by
  rw [parseNum, scanNum_again hscan hrest0 hrest]
  dsimp only
  rw [if_neg hfe]
  have e : numToken ⟨p.neg, p.ip, p.fp, p.ep, rest⟩ = numToken p := rfl
  rw [e, htok]

/- ## Round-trip helpers -/

theorem parseV_ws {cs cs' : List Char} (h : skipWs cs = skipWs cs') (f : Nat) :
    parseV f cs = parseV f cs' := by
  cases f with
  | zero => rfl
  | succ f =>
    rw [parseV.eq_def, parseV.eq_def]
    dsimp only
    rw [h]

theorem parseItems_ws {cs cs' : List Char} (h : skipWs cs = skipWs cs') (f : Nat) :
    parseItems f cs = parseItems f cs' := by
  cases f with
  | zero => rfl
  | succ f =>
    rw [parseItems.eq_def, parseItems.eq_def]
    dsimp only
    rw [parseV_ws h]

theorem parseMems_ws {cs cs' : List Char} (h : skipWs cs = skipWs cs') (f : Nat) :
    parseMems f cs = parseMems f cs' := by
  cases f with
  | zero => rfl
  | succ f =>
    rw [parseMems.eq_def, parseMems.eq_def]
    dsimp only
    rw [h]

theorem skipWs_indent (n : Nat) (y : List Char) :
    skipWs ('\n' :: (spaces n ++ y)) = skipWs y := by
  rw [show skipWs ('\n' :: (spaces n ++ y)) = skipWs (spaces n ++ y) from rfl,
    skipWs_spaces]

/-- Decompose a certified float token. -/
theorem checkFloatTok_dec {r : String} (h : checkFloatTok r = true) :
    r = "inf" ∨ r = "-inf" ∨ r = "nan" ∨
      ∃ p, scanNum r.data = some p ∧ p.rest = [] ∧
        ¬ (p.fp.isEmpty && p.ep.isEmpty) = true ∧ numToken p = r.data := by
  by_cases h1 : r = "inf"
  · exact Or.inl h1
  by_cases h2 : r = "-inf"
  · exact Or.inr (Or.inl h2)
  by_cases h3 : r = "nan"
  · exact Or.inr (Or.inr (Or.inl h3))
  refine Or.inr (Or.inr (Or.inr ?_))
  rw [checkFloatTok, decide_eq_false h1, decide_eq_false h2, decide_eq_false h3] at h
  simp only [Bool.false_or] at h
  rcases hscan : scanNum r.data with _ | p
  · rw [hscan] at h; cases h
  · rw [hscan] at h
    dsimp only at h
    simp only [Bool.and_eq_true, List.isEmpty_iff, Bool.not_eq_eq_eq_not, Bool.not_true,
      decide_eq_true_eq] at h
    obtain ⟨⟨hr0, hfe⟩, htok⟩ := h
    refine ⟨p, rfl, hr0, ?_, htok⟩
    simp only [Bool.and_eq_true, List.isEmpty_iff]
    intro hcon
    rw [hcon.1, hcon.2] at hfe
    simp at hfe

/-- The head of a complete scanned number token is a minus sign or a digit. -/
theorem floatTok_head {r : String} {p : NumParts} (hscan : scanNum r.data = some p)
    (hr0 : p.rest = []) :
    ∃ c t, r.data = c :: t ∧ (c = '-' ∨ isDigit c = true) ∧
      (c = '-' → ∃ d t', t = d :: t' ∧ isDigit d = true) := by
  obtain ⟨he, hip, _, _⟩ := scanNum_sound _ _ hscan
  rw [hr0, List.append_nil] at he
  obtain ⟨d, ip', hipe⟩ : ∃ d ip', p.ip = d :: ip' := by
    cases hi : p.ip with
    | nil => exact absurd hi hip.1
    | cons d ip' => exact ⟨d, ip', rfl⟩
  have hd : isDigit d = true := hip.2 d (by rw [hipe]; simp)
  cases hneg : p.neg with
  | true =>
    refine ⟨'-', p.ip ++ p.fp ++ p.ep, ?_, Or.inl rfl, ?_⟩
    · rw [he, numToken, hneg]
      simp
    · intro _
      exact ⟨d, ip' ++ p.fp ++ p.ep, by rw [hipe]; simp, hd⟩
  | false =>
    refine ⟨d, ip' ++ p.fp ++ p.ep, ?_, Or.inr hd, ?_⟩
    · rw [he, numToken, hneg, hipe]
      simp
    · intro hcon
      exact absurd hd (by rw [hcon]; decide)

/-- Every well-formed value dumps to text whose head is a non-whitespace
character other than `]` (so an array item is never mistaken for the
closing bracket). -/
theorem dumpV_head_cons (ind : Nat) {j : JValue} (hwf : wfV j = true) :
    ∃ c t, dumpV ind j = c :: t ∧ isWs c = false ∧ ¬ c = ']' := by
  cases j with
  | jnull => exact ⟨'n', _, rfl, by decide, by decide⟩
  | jbool b =>
    cases b
    · exact ⟨'f', _, rfl, by decide, by decide⟩
    · exact ⟨'t', _, rfl, by decide, by decide⟩
  | jint n =>
    obtain ⟨d, ds, hnd, hd, _⟩ := natToChars_cons n.natAbs
    by_cases hneg : n < 0
    · exact ⟨'-', _, by rw [dumpV, intChars, if_pos hneg], by decide, by decide⟩
    · refine ⟨d, ds, ?_, isWs_eq_false_of_digit hd, ne_of_digit hd (by decide)⟩
      rw [dumpV, intChars, if_neg hneg, hnd]
  | jfloat r =>
    rw [wfV] at hwf
    rcases checkFloatTok_dec hwf with h | h | h | ⟨p, hscan, hr0, hfe, htok⟩
    · subst h; exact ⟨'I', _, rfl, by decide, by decide⟩
    · subst h; exact ⟨'-', _, rfl, by decide, by decide⟩
    · subst h; exact ⟨'N', _, rfl, by decide, by decide⟩
    · obtain ⟨c, t, hct, hcd, hminus⟩ := floatTok_head hscan hr0
      have hne1 : ¬ r = "inf" := by
        intro h'; subst h'; rw [show ("inf" : String).data = ['i', 'n', 'f'] from rfl] at hct
        cases hct
        rcases hcd with h' | h' <;> revert h' <;> decide
      have hne2 : ¬ r = "-inf" := by
        intro h'
        subst h'
        rw [show ("-inf" : String).data = ['-', 'i', 'n', 'f'] from rfl] at hct
        cases hct
        obtain ⟨d, t', ht', hd⟩ := hminus rfl
        cases ht'
        revert hd
        decide
      have hne3 : ¬ r = "nan" := by
        intro h'; subst h'; rw [show ("nan" : String).data = ['n', 'a', 'n'] from rfl] at hct
        cases hct
        rcases hcd with h' | h' <;> revert h' <;> decide
      refine ⟨c, t, ?_, ?_, ?_⟩
      · rw [dumpV, dumpFloatTok, if_neg hne1, if_neg hne2, if_neg hne3, hct]
      · rcases hcd with h' | h'
        · subst h'; decide
        · exact isWs_eq_false_of_digit h'
      · rcases hcd with h' | h'
        · subst h'; decide
        · exact ne_of_digit h' (by decide)
  | jstr s => exact ⟨'"', _, rfl, by decide, by decide⟩
  | jarr its =>
    cases its with
    | nil => exact ⟨'[', _, rfl, by decide, by decide⟩
    | cons v tl => exact ⟨'[', _, rfl, by decide, by decide⟩
  | jobj ms =>
    cases ms with
    | nil => exact ⟨lbrace, _, rfl, by decide, by decide⟩
    | cons k v tl => exact ⟨lbrace, _, rfl, by decide, by decide⟩

theorem sizeV_pos (j : JValue) : 1 ≤ sizeV j := by
  cases j <;> simp [sizeV]

theorem sizeI_pos (its : JItems) : 1 ≤ sizeI its := by
  cases its <;> simp [sizeI]

theorem sizeM_pos (ms : JMems) : 1 ≤ sizeM ms := by
  cases ms <;> simp [sizeM]

/-- The central round-trip: parsing the dumped text of a well-formed value
(at any indentation, followed by a delimiter) returns exactly that value. -/
theorem parse_dump : ∀ f : Nat,
    (∀ (ind : Nat) (j : JValue) (rest : List Char), wfV j = true → sizeV j < f →
      numDelim rest = true →
      parseV f (dumpV ind j ++ rest) = some (j, rest)) ∧
    (∀ (eind cind : Nat) (v : JValue) (tl : JItems) (rest : List Char),
      wfV v = true → wfI tl = true → sizeV v + sizeI tl < f →
      parseItems f (dumpV eind v ++ (dumpItemsTail eind cind tl ++ rest)) =
        some (.cons v tl, rest)) ∧
    (∀ (eind cind : Nat) (k : String) (v : JValue) (tl : JMems) (rest : List Char),
      wfV v = true → wfM tl = true → sizeV v + sizeM tl < f →
      parseMems f ('"' :: (escStr k.data ++ ('"' :: (':' :: (' ' :: (dumpV eind v ++
        (dumpMemsTail eind cind tl ++ rest))))))) = some (.cons k v tl, rest)) := by
  intro f
  induction f with
  | zero =>
    refine ⟨?_, ?_, ?_⟩
    · intro ind j rest _ hsz _; omega
    · intro eind cind v tl rest _ _ hsz; omega
    · intro eind cind k v tl rest _ _ hsz; omega
  | succ f ih =>
    obtain ⟨ihV, ihI, ihM⟩ := ih
    refine ⟨?_, ?_, ?_⟩
    · -- parseV
      intro ind j rest hwf hsz hrest
      cases j with
      | jnull =>
        rw [show dumpV ind .jnull ++ rest = 'n' :: 'u' :: 'l' :: 'l' :: rest from rfl]
        exact parseV_null f rest
      | jbool b =>
        cases b
        · rw [show dumpV ind (.jbool false) ++ rest =
            'f' :: 'a' :: 'l' :: 's' :: 'e' :: rest from rfl]
          exact parseV_false f rest
        · rw [show dumpV ind (.jbool true) ++ rest =
            't' :: 'r' :: 'u' :: 'e' :: rest from rfl]
          exact parseV_true f rest
      | jint n =>
        obtain ⟨d, ds, hnd, hd, _⟩ := natToChars_cons n.natAbs
        by_cases hneg : n < 0
        · have e : dumpV ind (.jint n) ++ rest = '-' :: (natToChars n.natAbs ++ rest) := by
            rw [dumpV, intChars, if_pos hneg]
            simp
          have hhead : ¬ (natToChars n.natAbs ++ rest).head? = some 'I' := by
            rw [hnd]
            intro hcon
            rw [List.cons_append] at hcon
            simp only [List.head?_cons, Option.some.injEq] at hcon
            subst hcon
            exact absurd hd (by decide)
          have e2 : '-' :: (natToChars n.natAbs ++ rest) = intChars n ++ rest := by
            rw [intChars, if_pos hneg]
            simp
          rw [e, parseV_minus_num hhead f, e2]
          exact parseNum_int n hrest
        · have e : dumpV ind (.jint n) ++ rest = d :: (ds ++ rest) := by
            rw [dumpV, intChars, if_neg hneg, hnd]
            simp
          have e2 : d :: (ds ++ rest) = intChars n ++ rest := by
            rw [intChars, if_neg hneg, hnd]
            simp
          rw [e, parseV_digit hd f, e2]
          exact parseNum_int n hrest
      | jfloat r =>
        rw [wfV] at hwf
        rcases checkFloatTok_dec hwf with h | h | h | ⟨p, hscan, hr0, hfe, htok⟩
        · subst h
          rw [show dumpV ind (.jfloat "inf") ++ rest =
            'I' :: 'n' :: 'f' :: 'i' :: 'n' :: 'i' :: 't' :: 'y' :: rest from rfl]
          exact parseV_inf f rest
        · subst h
          rw [show dumpV ind (.jfloat "-inf") ++ rest =
            '-' :: 'I' :: 'n' :: 'f' :: 'i' :: 'n' :: 'i' :: 't' :: 'y' :: rest from rfl]
          exact parseV_neginf f rest
        · subst h
          rw [show dumpV ind (.jfloat "nan") ++ rest =
            'N' :: 'a' :: 'N' :: rest from rfl]
          exact parseV_nan f rest
        · obtain ⟨c, t, hct, hcd, hminus⟩ := floatTok_head hscan hr0
          have hne1 : ¬ r = "inf" := by
            intro h'
            subst h'
            rw [show ("inf" : String).data = ['i', 'n', 'f'] from rfl] at hct
            cases hct
            rcases hcd with h' | h' <;> revert h' <;> decide
          have hne2 : ¬ r = "-inf" := by
            intro h'
            subst h'
            rw [show ("-inf" : String).data = ['-', 'i', 'n', 'f'] from rfl] at hct
            cases hct
            obtain ⟨d, t', ht', hdig⟩ := hminus rfl
            cases ht'
            revert hdig
            decide
          have hne3 : ¬ r = "nan" := by
            intro h'
            subst h'
            rw [show ("nan" : String).data = ['n', 'a', 'n'] from rfl] at hct
            cases hct
            rcases hcd with h' | h' <;> revert h' <;> decide
          have e : dumpV ind (.jfloat r) ++ rest = r.data ++ rest := by
            rw [dumpV, dumpFloatTok, if_neg hne1, if_neg hne2, if_neg hne3]
          rw [e]
          rcases hcd with hcm | hcdig
          · subst hcm
            obtain ⟨d, t', ht', hdig⟩ := hminus rfl
            have e2 : r.data ++ rest = '-' :: (t ++ rest) := by
              rw [hct, List.cons_append]
            have hhead : ¬ (t ++ rest).head? = some 'I' := by
              rw [ht']
              intro hcon
              rw [List.cons_append] at hcon
              simp only [List.head?_cons, Option.some.injEq] at hcon
              subst hcon
              exact absurd hdig (by decide)
            rw [e2, parseV_minus_num hhead f, ← e2]
            exact parseNum_float hscan hr0 hfe htok hrest
          · have e2 : r.data ++ rest = c :: (t ++ rest) := by
              rw [hct, List.cons_append]
            rw [e2, parseV_digit hcdig f, ← e2]
            exact parseNum_float hscan hr0 hfe htok hrest
      | jstr s =>
        have e : dumpV ind (.jstr s) ++ rest = '"' :: (escStr s.data ++ ('"' :: rest)) := by
          rw [dumpV]
          simp
        rw [e, parseV_quote, parseStr_escStr]
      | jarr its =>
        cases its with
        | nil =>
          rw [show dumpV ind (.jarr .nil) ++ rest = '[' :: (']' :: rest) from rfl]
          rfl
        | cons v tl =>
          rw [wfV, wfI, Bool.and_eq_true] at hwf
          obtain ⟨hv, htl⟩ := hwf
          rw [sizeV, sizeI] at hsz
          have e : dumpV ind (.jarr (.cons v tl)) ++ rest =
              '[' :: ('\n' :: (spaces (ind + 2) ++ (dumpV (ind + 2) v ++
                (dumpItemsTail (ind + 2) ind tl ++ rest)))) := by
            rw [dumpV]
            simp
          rw [e, parseV_lbrack]
          obtain ⟨c, t, hct, hws, hne⟩ := dumpV_head_cons (ind + 2) hv
          have hskip : skipWs ('\n' :: (spaces (ind + 2) ++ (dumpV (ind + 2) v ++
              (dumpItemsTail (ind + 2) ind tl ++ rest)))) =
              c :: (t ++ (dumpItemsTail (ind + 2) ind tl ++ rest)) := by
            rw [skipWs_indent, hct, List.cons_append]
            exact skipWs_nonws hws _
          rw [hskip]
          dsimp only
          rw [if_neg hne]
          have e3 : c :: (t ++ (dumpItemsTail (ind + 2) ind tl ++ rest)) =
              dumpV (ind + 2) v ++ (dumpItemsTail (ind + 2) ind tl ++ rest) := by
            rw [hct, List.cons_append]
          rw [e3, ihI (ind + 2) ind v tl rest hv htl (by omega)]
          rfl
      | jobj ms =>
        cases ms with
        | nil =>
          rw [show dumpV ind (.jobj .nil) ++ rest = lbrace :: (rbrace :: rest) from rfl]
          rfl
        | cons k v tl =>
          rw [wfV, wfM, Bool.and_eq_true] at hwf
          obtain ⟨hv, htl⟩ := hwf
          rw [sizeV, sizeM] at hsz
          have e : dumpV ind (.jobj (.cons k v tl)) ++ rest =
              lbrace :: ('\n' :: (spaces (ind + 2) ++ ('"' :: (escStr k.data ++ ('"' :: (':' ::
                (' ' :: (dumpV (ind + 2) v ++ (dumpMemsTail (ind + 2) ind tl ++ rest))))))))) := by
            rw [dumpV]
            simp
          rw [e, parseV_lbrace]
          have hskip : skipWs ('\n' :: (spaces (ind + 2) ++ ('"' :: (escStr k.data ++ ('"' :: (':' ::
              (' ' :: (dumpV (ind + 2) v ++ (dumpMemsTail (ind + 2) ind tl ++ rest))))))))) =
              '"' :: (escStr k.data ++ ('"' :: (':' ::
                (' ' :: (dumpV (ind + 2) v ++ (dumpMemsTail (ind + 2) ind tl ++ rest)))))) := by
            rw [skipWs_indent]
            exact skipWs_nonws (by decide) _
          rw [hskip]
          dsimp only
          rw [if_neg (by decide : ¬ '"' = rbrace)]
          rw [ihM (ind + 2) ind k v tl rest hv htl (by omega)]
          rfl
    · -- parseItems
      intro eind cind v tl rest hv htl hsz
      rw [parseItems.eq_def]
      dsimp only
      have hnd : numDelim (dumpItemsTail eind cind tl ++ rest) = true := by
        cases tl <;> rfl
      have hszv : sizeV v < f := by
        have := sizeI_pos tl
        omega
      rw [ihV eind v _ hv hszv hnd]
      dsimp only
      cases tl with
      | nil =>
        have e : dumpItemsTail eind cind .nil ++ rest =
            '\n' :: (spaces cind ++ (']' :: rest)) := by
          rw [dumpItemsTail]
          simp
        rw [e, skipWs_indent, skipWs_nonws (by decide)]
        rfl
      | cons v2 tl2 =>
        rw [wfI, Bool.and_eq_true] at htl
        obtain ⟨hv2, htl2⟩ := htl
        rw [sizeI] at hsz
        have e : dumpItemsTail eind cind (.cons v2 tl2) ++ rest =
            ',' :: ('\n' :: (spaces eind ++ (dumpV eind v2 ++
              (dumpItemsTail eind cind tl2 ++ rest)))) := by
          rw [dumpItemsTail]
          simp
        rw [e, skipWs_nonws (by decide)]
        dsimp only
        rw [if_pos rfl, parseItems_ws (skipWs_indent eind _) f]
        have hszv2 : sizeV v2 + sizeI tl2 < f := by
          have := sizeV_pos v
          omega
        rw [ihI eind cind v2 tl2 rest hv2 htl2 hszv2]
        rfl
    · -- parseMems
      intro eind cind k v tl rest hv htl hsz
      rw [parseMems.eq_def]
      dsimp only
      rw [skipWs_nonws (by decide)]
      dsimp only
      rw [if_pos rfl, parseStr_escStr]
      dsimp only
      rw [skipWs_nonws (by decide)]
      dsimp only
      rw [if_pos rfl]
      have hsp : parseV f (' ' :: (dumpV eind v ++ (dumpMemsTail eind cind tl ++ rest))) =
          parseV f (dumpV eind v ++ (dumpMemsTail eind cind tl ++ rest)) :=
        parseV_ws (show skipWs (' ' :: (dumpV eind v ++ (dumpMemsTail eind cind tl ++ rest))) =
          skipWs (dumpV eind v ++ (dumpMemsTail eind cind tl ++ rest)) from rfl) f
      rw [hsp]
      have hnd : numDelim (dumpMemsTail eind cind tl ++ rest) = true := by
        cases tl <;> rfl
      have hszv : sizeV v < f := by
        have := sizeM_pos tl
        omega
      rw [ihV eind v _ hv hszv hnd]
      dsimp only
      cases tl with
      | nil =>
        have e : dumpMemsTail eind cind .nil ++ rest =
            '\n' :: (spaces cind ++ (rbrace :: rest)) := by
          rw [dumpMemsTail]
          simp
        rw [e, skipWs_indent, skipWs_nonws (by decide)]
        rfl
      | cons k2 v2 tl2 =>
        rw [wfM, Bool.and_eq_true] at htl
        obtain ⟨hv2, htl2⟩ := htl
        rw [sizeM] at hsz
        have e : dumpMemsTail eind cind (.cons k2 v2 tl2) ++ rest =
            ',' :: ('\n' :: (spaces eind ++ ('"' :: (escStr k2.data ++ ('"' :: (':' :: (' ' ::
              (dumpV eind v2 ++ (dumpMemsTail eind cind tl2 ++ rest))))))))) := by
          rw [dumpMemsTail]
          simp
        rw [e, skipWs_nonws (by decide)]
        dsimp only
        rw [if_pos rfl, parseMems_ws (skipWs_indent eind _) f]
        have hszv2 : sizeV v2 + sizeM tl2 < f := by
          have := sizeV_pos v
          omega
        rw [ihM eind cind k2 v2 tl2 rest hv2 htl2 hszv2]
        rfl

mutual
theorem dumpV_len : ∀ (ind : Nat) (j : JValue), wfV j = true → sizeV j ≤ (dumpV ind j).length
  | _, .jnull, _ => by simp [dumpV, sizeV]
  | _, .jbool true, _ => by simp [dumpV, sizeV]
  | _, .jbool false, _ => by simp [dumpV, sizeV]
  | _, .jint n, _ => by
    obtain ⟨d, ds, hnd, _, _⟩ := natToChars_cons n.natAbs
    simp only [dumpV, sizeV, intChars]
    split <;> simp [hnd]
  | _, .jfloat r, hwf => by
    rw [wfV] at hwf
    simp only [dumpV, sizeV]
    rcases checkFloatTok_dec hwf with h | h | h | ⟨p, hscan, hr0, _, _⟩
    · subst h; decide
    · subst h; decide
    · subst h; decide
    · obtain ⟨c, t, hct, _, _⟩ := floatTok_head hscan hr0
      rw [dumpFloatTok]
      split_ifs
      · decide
      · decide
      · decide
      · rw [hct]
        simp
  | _, .jstr s, _ => by simp [dumpV, sizeV]
  | ind, .jarr .nil, _ => by simp [dumpV, sizeV, sizeI]
  | ind, .jarr (.cons v tl), hwf => by
    rw [wfV, wfI, Bool.and_eq_true] at hwf
    obtain ⟨hv, htl⟩ := hwf
    have h1 := dumpV_len (ind + 2) v hv
    have h2 := dumpItemsTail_len (ind + 2) ind tl htl
    simp only [dumpV, sizeV, sizeI, List.length_cons, List.length_append]
    omega
  | ind, .jobj .nil, _ => by simp [dumpV, sizeV, sizeM]
  | ind, .jobj (.cons k v tl), hwf => by
    rw [wfV, wfM, Bool.and_eq_true] at hwf
    obtain ⟨hv, htl⟩ := hwf
    have h1 := dumpV_len (ind + 2) v hv
    have h2 := dumpMemsTail_len (ind + 2) ind tl htl
    simp only [dumpV, sizeV, sizeM, List.length_cons, List.length_append]
    omega
theorem dumpItemsTail_len : ∀ (eind cind : Nat) (tl : JItems), wfI tl = true →
    sizeI tl ≤ (dumpItemsTail eind cind tl).length
  | eind, cind, .nil, _ => by simp [dumpItemsTail, sizeI]
  | eind, cind, .cons v tl, hwf => by
    rw [wfI, Bool.and_eq_true] at hwf
    obtain ⟨hv, htl⟩ := hwf
    have h1 := dumpV_len eind v hv
    have h2 := dumpItemsTail_len eind cind tl htl
    simp only [dumpItemsTail, sizeI, List.length_cons, List.length_append]
    omega
theorem dumpMemsTail_len : ∀ (eind cind : Nat) (tl : JMems), wfM tl = true →
    sizeM tl ≤ (dumpMemsTail eind cind tl).length
  | eind, cind, .nil, _ => by simp [dumpMemsTail, sizeM]
  | eind, cind, .cons k v tl, hwf => by
    rw [wfM, Bool.and_eq_true] at hwf
    obtain ⟨hv, htl⟩ := hwf
    have h1 := dumpV_len eind v hv
    have h2 := dumpMemsTail_len eind cind tl htl
    simp only [dumpMemsTail, sizeM, List.length_cons, List.length_append]
    omega
end

/-- Top-level round trip: `json.loads` of the exact text `json.dump` wrote
returns the same document (for any well-formed document). -/
theorem parseJson_dumpJson {j : JValue} (hwf : wfV j = true) :
    parseJson (dumpJson j) = some j := by
  rw [parseJson, dumpJson]
  have hfuel : sizeV j < (dumpV 0 j).length + 1 :=
    Nat.lt_succ_of_le (dumpV_len 0 j hwf)
  have h := (parse_dump ((dumpV 0 j).length + 1)).1 0 j [] hwf hfuel rfl
  rw [List.append_nil] at h
  rw [show (⟨dumpV 0 j⟩ : String).data = dumpV 0 j from rfl, h]
  rfl

/- ## Exact rational arithmetic (kernel-evaluable, no normalisation) -/

/-- An unnormalised fraction `num / den` with `den > 0` maintained by every
constructor below.  Used to model the exact real-number semantics of Python's
`float(Decimal(...))` conversion; avoiding normalisation keeps every
operation reducible inside the kernel. -/
structure Q where
  num : Int
  den : Nat

def Q.mul (a b : Q) : Q := ⟨a.num * b.num, a.den * b.den⟩

def Q.neg (a : Q) : Q := ⟨-a.num, a.den⟩

def Q.isZero (a : Q) : Bool := a.num == 0

def Q.isNeg (a : Q) : Bool := a.num < 0

/-- Value comparison by cross multiplication (valid because `den > 0`). -/
def Q.le (a b : Q) : Bool := a.num * (b.den : Int) ≤ b.num * (a.den : Int)

def Q.lt (a b : Q) : Bool := a.num * (b.den : Int) < b.num * (a.den : Int)

def Q.eqv (a b : Q) : Bool := a.num * (b.den : Int) == b.num * (a.den : Int)

/-- Floor, for nonnegative values. -/
def Q.floorNN (a : Q) : Nat := (a.num / (a.den : Int)).toNat

/-- Round a nonnegative value to the nearest integer, ties to even. -/
def Q.roundNE (a : Q) : Nat :=
  let f := a.floorNN
  let r := a.num - (f : Int) * (a.den : Int)
  if 2 * r < (a.den : Int) then f
  else if (a.den : Int) < 2 * r then f + 1
  else if f % 2 = 0 then f else f + 1

def qpow2 (e : Int) : Q := if 0 ≤ e then ⟨((2 ^ e.toNat : Nat) : Int), 1⟩ else ⟨1, 2 ^ (-e).toNat⟩

def qpow10 (e : Int) : Q := if 0 ≤ e then ⟨((10 ^ e.toNat : Nat) : Int), 1⟩ else ⟨1, 10 ^ (-e).toNat⟩

/-- Fuelled floor of `log2` (kernel-evaluable, unlike the library's
well-founded version). -/
def natLog2F : Nat → Nat → Nat
  | 0, _ => 0
  | fuel + 1, n => if n ≤ 1 then 0 else natLog2F fuel (n / 2) + 1

def natLog2 (n : Nat) : Nat := natLog2F n n

def natLog10F : Nat → Nat → Nat
  | 0, _ => 0
  | fuel + 1, n => if n ≤ 9 then 0 else natLog10F fuel (n / 10) + 1

def natLog10 (n : Nat) : Nat := natLog10F n n

/-- Adjust a candidate binary exponent until `2^e ≤ a < 2^(e+1)`; the initial
estimate from the integer logs is off by at most one, so the fuel is ample. -/
def dyExpAux : Nat → Int → Q → Int
  | 0, e, _ => e
  | fuel + 1, e, a =>
    if (qpow2 (e + 1)).le a then dyExpAux fuel (e + 1) a
    else if a.lt (qpow2 e) then dyExpAux fuel (e - 1) a
    else e

def dyExp (a : Q) : Int :=
  dyExpAux 8 ((natLog2 a.num.natAbs : Int) - (natLog2 a.den : Int)) a

def decExpAux : Nat → Int → Q → Int
  | 0, e, _ => e
  | fuel + 1, e, a =>
    if (qpow10 (e + 1)).le a then decExpAux fuel (e + 1) a
    else if a.lt (qpow10 e) then decExpAux fuel (e - 1) a
    else e

def decExp (a : Q) : Int :=
  decExpAux 8 ((natLog10 a.num.natAbs : Int) - (natLog10 a.den : Int)) a

/-- IEEE-754 binary64 round-to-nearest-even of a positive rational; `none`
means overflow to infinity.  The quantum exponent is `e - 52` clamped at
`-1074` (subnormals); a result at or above `2^1024` overflows. -/
def roundPosToDouble (a : Q) : Option Q :=
  let e := dyExp a
  let eff : Int := max (e - 52) (-1074)
  let m := (a.mul (qpow2 (-eff))).roundNE
  let v := Q.mul ⟨(m : Int), 1⟩ (qpow2 eff)
  if (qpow2 1024).le v then none else some v

/-- Remove trailing zero digits, returning the stripped number and the count. -/
def stripZerosF : Nat → Nat → Nat × Nat
  | 0, m => (m, 0)
  | fuel + 1, m =>
    if m ≠ 0 ∧ m % 10 = 0 then
      let p := stripZerosF fuel (m / 10)
      (p.1, p.2 + 1)
    else (m, 0)

def stripZeros (m : Nat) : Nat × Nat := stripZerosF m m

def pad2exp (l : List Char) : List Char := if l.length < 2 then '0' :: l else l

/-- Python `repr` formatting of a float from its significant digits: the
value is `m × 10^E` with `m` free of trailing zeros.  Fixed-point notation
when the decimal exponent of the leading digit lies in `[-4, 16)`, scientific
with a signed two-digit-minimum exponent otherwise - CPython's
`format_float_short` in repr mode. -/
def formatSig (sign : Bool) (m : Nat) (E : Int) : String :=
  let ds := natToChars m
  let L : Int := (ds.length : Int)
  let P : Int := E + L - 1
  let core :=
    if -4 ≤ P ∧ P < 16 then
      if L - 1 ≤ P then ds ++ (List.replicate (P - (L - 1)).toNat '0' ++ ['.', '0'])
      else if 0 ≤ P then ds.take (P.toNat + 1) ++ ('.' :: ds.drop (P.toNat + 1))
      else '0' :: '.' :: (List.replicate (-P - 1).toNat '0' ++ ds)
    else
      (ds.take 1 ++ (if 1 < ds.length then '.' :: ds.drop 1 else [])) ++
        ('e' :: (if P < 0 then '-' else '+') :: pad2exp (natToChars P.natAbs))
  ⟨if sign then '-' :: core else core⟩

/-- Candidates for the value rounded to `k` significant decimal digits:
floor and ceiling of `v / 10^(P-k+1)`, nearest first (ties toward even). -/
def sigCandidates (v : Q) (P : Int) (k : Nat) : List Nat :=
  let x := v.mul (qpow10 (-(P - (k : Int) + 1)))
  let fl := x.floorNN
  let r := x.num - (fl : Int) * (x.den : Int)
  if 2 * r < (x.den : Int) then [fl, fl + 1]
  else if (x.den : Int) < 2 * r then [fl + 1, fl]
  else if fl % 2 = 0 then [fl, fl + 1] else [fl + 1, fl]

def optQEqv : Option Q → Q → Bool
  | none, _ => false
  | some a, b => a.eqv b

/-- Does the `k`-digit candidate `c × 10^(P-k+1)` round back to exactly `v`? -/
def sigOk (v : Q) (P : Int) (k : Nat) (c : Nat) : Bool :=
  c != 0 && optQEqv (roundPosToDouble (Q.mul ⟨(c : Int), 1⟩ (qpow10 (P - (k : Int) + 1)))) v

def firstSig (v : Q) (P : Int) (k : Nat) : Option Nat :=
  ((sigCandidates v P k).filter (fun c => sigOk v P k c)).head?

/-- Shortest-repr search: fewest significant digits (preferring the nearer
candidate) whose decimal value rounds back to the double `v`; 17 digits
always suffice for binary64, so the fallback is never reached in fact. -/
def shortestSig (v : Q) (P : Int) : Nat × Int :=
  match (List.range 17).findSome? (fun i =>
      (firstSig v P (i + 1)).map (fun c => (c, i + 1))) with
  | some (c, k) =>
    let p := stripZeros c
    (p.1, P - (k : Int) + 1 + (p.2 : Int))
  | none =>
    let c := (v.mul (qpow10 (16 - P))).roundNE
    let p := stripZeros c
    (p.1, P - 17 + 1 + (p.2 : Int))

/-- `repr` of the positive double with exact value `v`. -/
def reprPosDouble (sign : Bool) (v : Q) : String :=
  let s := shortestSig v (decExp v)
  formatSig sign s.1 s.2

/-- Python `float()` of an exact rational, composed with `repr`: the token
`json.dump` writes for `float(Decimal(...))`.  Mirrors CPython: an
out-of-range magnitude converts to an infinity, underflow to a signed zero. -/
def pyFloat (q : Q) : String :=
  if q.isZero then "0.0"
  else if q.isNeg then
    match roundPosToDouble q.neg with
    | none => "-inf"
    | some v => if v.isZero then "-0.0" else reprPosDouble true v
  else
    match roundPosToDouble q with
    | none => "inf"
    | some v => if v.isZero then "0.0" else reprPosDouble false v

/- ## Every float the encoder produces is a well-formed token -/

theorem checkFloatTok_of_parts {r : String} {neg : Bool} {ip fp ep : List Char}
    (hip : digitsNE ip) (hfp : FracShape fp) (hep : ExpShape ep)
    (hne : ¬ (fp = [] ∧ ep = []))
    (he : r.data = numToken ⟨neg, ip, fp, ep, []⟩) :
    checkFloatTok r = true := by
  have hscan : scanNum r.data = some ⟨neg, ip, fp, ep, []⟩ := by
    rw [he]
    have h := @scanNum_build neg _ _ _ [] hip hfp hep rfl
    rw [List.append_nil] at h
    exact h
  rw [checkFloatTok, hscan]
  dsimp only
  have h1 : (fp.isEmpty && ep.isEmpty) = false := by
    rcases hf : fp with _ | ⟨a, b⟩
    · rcases hg : ep with _ | ⟨c, d⟩
      · exact absurd ⟨hf ▸ rfl, hg ▸ rfl⟩ hne
      · simp
    · simp
  rw [h1]
  have h2 : decide (numToken ⟨neg, ip, fp, ep, []⟩ = r.data) = true := by
    simp [he]
  rw [h2]
  simp

theorem checkFloatTok_formatSig (sign : Bool) (m : Nat) (E : Int) :
    checkFloatTok (formatSig sign m E) = true := by
  obtain ⟨d, ds', hnd, hd, hds'⟩ := natToChars_cons m
  have hdsne : natToChars m ≠ [] := natToChars_ne_nil m
  have hdsdig : ∀ c ∈ natToChars m, isDigit c = true := natToChars_digits m
  rw [formatSig]
  set ds := natToChars m with hds
  by_cases hP : -4 ≤ E + (ds.length : Int) - 1 ∧ E + (ds.length : Int) - 1 < 16
  · rw [if_pos hP]
    set P : Int := E + (ds.length : Int) - 1 with hPdef
    by_cases hB1 : (ds.length : Int) - 1 ≤ P
    · rw [if_pos hB1]
      refine @checkFloatTok_of_parts _ sign
        (ds ++ List.replicate (P - ((ds.length : Int) - 1)).toNat '0')
        (['.', '0']) ([])
        ⟨by simp [hdsne], ?_⟩ (FracShape.mk ['0'] ⟨by simp, by decide⟩) ExpShape.empty
        (by simp) ?_
      · intro c hc
        rcases List.mem_append.mp hc with hc | hc
        · exact hdsdig c hc
        · rw [List.eq_of_mem_replicate hc]
          decide
      · cases sign <;> simp [numToken]
    · rw [if_neg hB1]
      by_cases hB2 : 0 ≤ P
      · rw [if_pos hB2]
        have hlen : P.toNat + 1 < ds.length := by omega
        refine @checkFloatTok_of_parts _ sign
          (ds.take (P.toNat + 1)) ('.' :: ds.drop (P.toNat + 1)) ([])
          ⟨?_, ?_⟩ (FracShape.mk _ ⟨?_, ?_⟩) ExpShape.empty (by simp) ?_
        · rw [hnd]
          simp
        · intro c hc
          exact hdsdig c (List.mem_of_mem_take hc)
        · simp [List.drop_eq_nil_iff]
          omega
        · intro c hc
          exact hdsdig c (List.mem_of_mem_drop hc)
        · cases sign <;> simp [numToken]
      · rw [if_neg hB2]
        refine @checkFloatTok_of_parts _ sign
          (['0']) ('.' :: (List.replicate (-P - 1).toNat '0' ++ ds)) ([])
          ⟨by simp, by intro c hc; simp at hc; subst hc; decide⟩
          (FracShape.mk _ ⟨by simp [hdsne], ?_⟩) ExpShape.empty (by simp) ?_
        · intro c hc
          rcases List.mem_append.mp hc with hc | hc
          · rw [List.eq_of_mem_replicate hc]
            decide
          · exact hdsdig c hc
        · cases sign <;> simp [numToken]
  · rw [if_neg hP]
    set P : Int := E + (ds.length : Int) - 1 with hPdef
    have hpadne : pad2exp (natToChars P.natAbs) ≠ [] := by
      rw [pad2exp]
      split
      · simp
      · exact natToChars_ne_nil _
    have hpaddig : ∀ c ∈ pad2exp (natToChars P.natAbs), isDigit c = true := by
      intro c hc
      rw [pad2exp] at hc
      split at hc
      · rcases List.mem_cons.mp hc with hc | hc
        · subst hc; decide
        · exact natToChars_digits _ c hc
      · exact natToChars_digits _ c hc
    by_cases hL : 1 < ds.length
    · rw [if_pos hL]
      by_cases hPneg : P < 0
      · rw [if_pos hPneg]
        refine @checkFloatTok_of_parts _ sign
          (ds.take 1) ('.' :: ds.drop 1)
          ('e' :: (['-'] ++ pad2exp (natToChars P.natAbs)))
          ⟨by rw [hnd]; simp, ?_⟩
          (FracShape.mk _ ⟨by apply List.length_pos.mp; simp [List.length_drop]; omega, ?_⟩)
          (ExpShape.mk 'e' _ _ (Or.inl rfl) (Or.inr (Or.inr rfl)) ⟨hpadne, hpaddig⟩)
          (by simp) ?_
        · intro c hc
          exact hdsdig c (List.mem_of_mem_take hc)
        · intro c hc
          exact hdsdig c (List.mem_of_mem_drop hc)
        · cases sign <;> simp [numToken]
      · rw [if_neg hPneg]
        refine @checkFloatTok_of_parts _ sign
          (ds.take 1) ('.' :: ds.drop 1)
          ('e' :: (['+'] ++ pad2exp (natToChars P.natAbs)))
          ⟨by rw [hnd]; simp, ?_⟩
          (FracShape.mk _ ⟨by apply List.length_pos.mp; simp [List.length_drop]; omega, ?_⟩)
          (ExpShape.mk 'e' _ _ (Or.inl rfl) (Or.inr (Or.inl rfl)) ⟨hpadne, hpaddig⟩)
          (by simp) ?_
        · intro c hc
          exact hdsdig c (List.mem_of_mem_take hc)
        · intro c hc
          exact hdsdig c (List.mem_of_mem_drop hc)
        · cases sign <;> simp [numToken]
    · rw [if_neg hL]
      by_cases hPneg : P < 0
      · rw [if_pos hPneg]
        refine @checkFloatTok_of_parts _ sign
          (ds.take 1) ([])
          ('e' :: (['-'] ++ pad2exp (natToChars P.natAbs)))
          ⟨by rw [hnd]; simp, ?_⟩ FracShape.empty
          (ExpShape.mk 'e' _ _ (Or.inl rfl) (Or.inr (Or.inr rfl)) ⟨hpadne, hpaddig⟩)
          (by simp) ?_
        · intro c hc
          exact hdsdig c (List.mem_of_mem_take hc)
        · cases sign <;> simp [numToken]
      · rw [if_neg hPneg]
        refine @checkFloatTok_of_parts _ sign
          (ds.take 1) ([])
          ('e' :: (['+'] ++ pad2exp (natToChars P.natAbs)))
          ⟨by rw [hnd]; simp, ?_⟩ FracShape.empty
          (ExpShape.mk 'e' _ _ (Or.inl rfl) (Or.inr (Or.inl rfl)) ⟨hpadne, hpaddig⟩)
          (by simp) ?_
        · intro c hc
          exact hdsdig c (List.mem_of_mem_take hc)
        · cases sign <;> simp [numToken]

theorem checkFloatTok_pyFloat (q : Q) : checkFloatTok (pyFloat q) = true := by
  rw [pyFloat]
  by_cases h0 : q.isZero = true
  · rw [if_pos h0]
    decide
  rw [if_neg h0]
  by_cases h1 : q.isNeg = true
  · rw [if_pos h1]
    rcases h : roundPosToDouble q.neg with _ | v
    · decide
    · dsimp only
      by_cases h2 : v.isZero = true
      · rw [if_pos h2]
        decide
      · rw [if_neg h2]
        exact checkFloatTok_formatSig true _ _
  · rw [if_neg h1]
    rcases h : roundPosToDouble q with _ | v
    · decide
    · dsimp only
      by_cases h2 : v.isZero = true
      · rw [if_pos h2]
        decide
      · rw [if_neg h2]
        exact checkFloatTok_formatSig false _ _

/- ## The Python-side data model of `scripts/fetch_data.py` -/

/-- `decimal.Decimal` as the BigQuery client returns for NUMERIC columns:
an integer scaled by a power of ten (value `num / 10^scale`). -/
structure Dec where
  num : Int
  scale : Nat

/-- The exact rational value of a decimal. -/
def Dec.val (d : Dec) : Q := ⟨d.num, 10 ^ d.scale⟩

/-- `datetime.datetime`, as much of it as `isoformat` reads: date and time
fields plus an optional UTC offset in minutes. -/
structure PyDateTime where
  year : Nat
  month : Nat
  day : Nat
  hour : Nat
  minute : Nat
  second : Nat
  microsecond : Nat
  tzOffsetMinutes : Option Int

/-- Zero-padded fixed-width decimal. -/
def padNum (w n : Nat) : List Char :=
  List.replicate (w - (natToChars n).length) '0' ++ natToChars n

/-- `datetime.isoformat()`: `YYYY-MM-DDTHH:MM:SS[.ffffff][+HH:MM]`.
Microseconds are omitted when zero (`timespec='auto'`); the offset is
omitted for a naive value and rendered `±HH:MM` otherwise. -/
def PyDateTime.isoformat (d : PyDateTime) : String :=
  ⟨padNum 4 d.year ++ ('-' :: padNum 2 d.month) ++ ('-' :: padNum 2 d.day) ++
    ('T' :: padNum 2 d.hour) ++ (':' :: padNum 2 d.minute) ++ (':' :: padNum 2 d.second) ++
    (if d.microsecond = 0 then [] else '.' :: padNum 6 d.microsecond) ++
    (match d.tzOffsetMinutes with
     | none => []
     | some off =>
       (if off < 0 then '-' else '+') :: (padNum 2 (off.natAbs / 60) ++
         (':' :: padNum 2 (off.natAbs % 60))))⟩

/-- A scalar value in a BigQuery result row, as the Python client hands it to
`json.dump`.  A float is carried as its repr token (see the header comment);
`pother hasIso iso` stands for any object of some other type, recording
whether it exposes an `isoformat` attribute and, if so, what calling it
returns - `datetime.date` and `datetime.time` objects fall in this bucket,
as does any unrelated type that happens to define `isoformat`. -/
inductive PyVal where
  | pnull
  | pbool (b : Bool)
  | pint (n : Int)
  | pfloat (r : String)
  | pstr (s : String)
  | pdec (d : Dec)
  | pdatetime (dt : PyDateTime)
  | pother (hasIso : Bool) (iso : String)

/-- What `json.dump(..., cls=_BQEncoder)` does with one scalar.  JSON-native
types are emitted directly; every other object goes through
`_BQEncoder.default`, which converts a `Decimal` with `float(obj)`, a
`datetime` with `obj.isoformat()`, then anything with an `isoformat`
attribute with `obj.isoformat()`, and otherwise defers to
`json.JSONEncoder.default`, which raises `TypeError` - surfaced here as
`Except.error`. -/
def encodePy : PyVal → Except String JValue
  | .pnull => .ok .jnull
  | .pbool b => .ok (.jbool b)
  | .pint n => .ok (.jint n)
  | .pfloat r => .ok (.jfloat r)
  | .pstr s => .ok (.jstr s)
  | .pdec d => .ok (.jfloat (pyFloat d.val))
  | .pdatetime dt => .ok (.jstr dt.isoformat)
  | .pother true iso => .ok (.jstr iso)
  | .pother false _ => .error "TypeError: object is not JSON serializable"

/-- One result row: the ordered mapping column name → scalar (`dict(row)`). -/
abbrev Row := List (String × PyVal)

def encodeRowFields : List (String × PyVal) → Except String JMems
  | [] => .ok .nil
  | (k, v) :: t =>
    match encodePy v with
    | .error e => .error e
    | .ok jv =>
      match encodeRowFields t with
      | .error e => .error e
      | .ok ms => .ok (.cons k jv ms)

def encodeRows : List Row → Except String JItems
  | [] => .ok .nil
  | r :: t =>
    match encodeRowFields r with
    | .error e => .error e
    | .ok ms =>
      match encodeRows t with
      | .error e => .error e
      | .ok its => .ok (.cons (.jobj ms) its)

/-- The payload `{"last_updated": now, "record_count": len(rows), "data": rows}`
built in `main`, after `_BQEncoder` conversion, as a JSON document (or the
`TypeError` the conversion raises). -/
def envelopeJ (now : String) (rows : List Row) : Except String JValue :=
  match encodeRows rows with
  | .error e => .error e
  | .ok its =>
    .ok (.jobj (.cons "last_updated" (.jstr now)
      (.cons "record_count" (.jint (rows.length : Int))
        (.cons "data" (.jarr its) .nil))))

/-- The exact file text `write_json` produces for one payload. -/
def serializeEnvelope (now : String) (rows : List Row) : Except String String :=
  match envelopeJ now rows with
  | .error e => .error e
  | .ok j => .ok (dumpJson j)

/- ## Well-formedness of encoded rows -/

/-- The only constraint: a raw float in a row carries a canonical repr token
(true of every float a real run can hold). -/
def wfPyVal : PyVal → Bool
  | .pfloat r => checkFloatTok r
  | _ => true

def wfRow : Row → Bool
  | [] => true
  | (_, v) :: t => wfPyVal v && wfRow t

def wfRows : List Row → Bool
  | [] => true
  | r :: t => wfRow r && wfRows t

theorem wfV_encodePy {v : PyVal} {jv : JValue} (hwf : wfPyVal v = true)
    (h : encodePy v = .ok jv) : wfV jv = true := by
  cases v with
  | pnull => cases h; rfl
  | pbool b => cases h; rfl
  | pint n => cases h; rfl
  | pfloat r => cases h; exact hwf
  | pstr s => cases h; rfl
  | pdec d => cases h; exact checkFloatTok_pyFloat _
  | pdatetime dt => cases h; rfl
  | pother hasIso iso =>
    cases hasIso with
    | true => cases h; rfl
    | false => cases h

theorem wfM_encodeRowFields : ∀ {r : Row} {ms : JMems}, wfRow r = true →
    encodeRowFields r = .ok ms → wfM ms = true := by
  intro r
  induction r with
  | nil =>
    intro ms _ h
    cases h
    rfl
  | cons kv t ih =>
    intro ms hwf h
    obtain ⟨k, v⟩ := kv
    rw [encodeRowFields] at h
    rw [wfRow, Bool.and_eq_true] at hwf
    rcases he : encodePy v with e | jv
    · rw [he] at h; cases h
    · rw [he] at h
      rcases ht : encodeRowFields t with e | ms'
      · rw [ht] at h; cases h
      · rw [ht] at h
        cases h
        rw [wfM, Bool.and_eq_true]
        exact ⟨wfV_encodePy hwf.1 he, ih hwf.2 ht⟩

theorem wfI_encodeRows : ∀ {rows : List Row} {its : JItems}, wfRows rows = true →
    encodeRows rows = .ok its → wfI its = true := by
  intro rows
  induction rows with
  | nil =>
    intro its _ h
    cases h
    rfl
  | cons r t ih =>
    intro its hwf h
    rw [encodeRows] at h
    rw [wfRows, Bool.and_eq_true] at hwf
    rcases hr : encodeRowFields r with e | ms
    · rw [hr] at h; cases h
    · rw [hr] at h
      rcases ht : encodeRows t with e | its'
      · rw [ht] at h; cases h
      · rw [ht] at h
        cases h
        rw [wfI, Bool.and_eq_true]
        refine ⟨?_, ih hwf.2 ht⟩
        rw [wfV]
        exact wfM_encodeRowFields hwf.1 hr

theorem wfV_envelopeJ {now : String} {rows : List Row} {j : JValue}
    (hwf : wfRows rows = true) (h : envelopeJ now rows = .ok j) : wfV j = true := by
  rw [envelopeJ] at h
  rcases hr : encodeRows rows with e | its
  · rw [hr] at h; cases h
  · rw [hr] at h
    cases h
    simp [wfV, wfM, wfI_encodeRows hwf hr]

/- ## The program: queries, `main`, and the `__main__` guard -/

/-- The f-string `CARD_METRICS_QUERY`, parameterised by `PROJECT_ID` and
`DATASET`. -/
def cardMetricsQuery (pid ds : String) : String :=
  "\nSELECT\n  set_id,\n  month,\n  card_number,\n  card_name,\n  rarity,\n  raw_price,\n" ++
  "  psa_10_price,\n  psa_9_price,\n  tag_10_price,\n  ace_10_price,\n  cgc_10_price,\n" ++
  "  bgs_10_price,\n  bgs_10_black_label_price,\n  cgc_10_pristine_price\nFROM\n  `" ++
  pid ++ "." ++ ds ++ ".card_metrics`\nORDER BY\n  month DESC,\n  set_id,\n  card_number\n"

/-- The f-string `SET_METRICS_QUERY`. -/
def setMetricsQuery (pid ds : String) : String :=
  "\nSELECT\n  set_id,\n  month,\n  ev,\n  set_value,\n  top_5_value,\n  top_5_ratio\nFROM\n  `" ++
  pid ++ "." ++ ds ++ ".set_metrics`\nORDER BY\n  month DESC,\n  set_id\n"

def OUTPUT_DIR : String := "static/data"

/-- Events observable in a run, in order of occurrence. -/
inductive Ev where
  | query (sql : String)
  | wrote (path : String) (content : String)
  | partialWrite (path : String)
deriving DecidableEq

/-- The warehouse behaviour for one run: what each of the two queries
returns; `Except.error` models the client raising (malformed SQL, missing
table, permission or network failure). -/
structure BQ where
  card : Except Unit (List Row)
  sets : Except Unit (List Row)

/-- `main()` as an event trace plus the process exit code (`0` on success;
an uncaught exception makes CPython exit `1`).  `now` is
`datetime.now(timezone.utc).isoformat()` captured once, after the client is
built and before the first query; `pid`/`ds` are the resolved environment
values interpolated into the SQL.  `open(path, "w")` truncates before
`json.dump` streams into it, so a serialisation `TypeError` leaves a
truncated file behind - the `partialWrite` event. -/
def mainRun (pid ds now : String) (bq : BQ) : List Ev × Nat :=
  match bq.card with
  | .error _ => ([.query (cardMetricsQuery pid ds)], 1)
  | .ok rows1 =>
    match serializeEnvelope now rows1 with
    | .error _ => ([.query (cardMetricsQuery pid ds),
        .partialWrite (OUTPUT_DIR ++ "/card_metrics.json")], 1)
    | .ok c1 =>
      match bq.sets with
      | .error _ => ([.query (cardMetricsQuery pid ds),
          .wrote (OUTPUT_DIR ++ "/card_metrics.json") c1,
          .query (setMetricsQuery pid ds)], 1)
      | .ok rows2 =>
        match serializeEnvelope now rows2 with
        | .error _ => ([.query (cardMetricsQuery pid ds),
            .wrote (OUTPUT_DIR ++ "/card_metrics.json") c1,
            .query (setMetricsQuery pid ds),
            .partialWrite (OUTPUT_DIR ++ "/set_metrics.json")], 1)
        | .ok c2 => ([.query (cardMetricsQuery pid ds),
            .wrote (OUTPUT_DIR ++ "/card_metrics.json") c1,
            .query (setMetricsQuery pid ds),
            .wrote (OUTPUT_DIR ++ "/set_metrics.json") c2], 0)

def envLookup : List (String × String) → String → Option String
  | [], _ => none
  | (k, v) :: t, key => if k = key then some v else envLookup t key

/-- The whole script process, from interpreter start.
`PROJECT_ID = os.environ["GCP_PROJECT_ID"]` runs at import time - before the
`try` block in the `__main__` guard is ever reached - so a missing variable
raises an uncaught `KeyError`: CPython exits with code 1 and prints a
traceback to stderr whose final line is `KeyError: 'GCP_PROJECT_ID'`
(the script's own `except KeyError` handler never runs for this case).
That diagnostic line is the `stderrLine` component; it is left empty on the
other paths, whose diagnostics no claim consults.  `DATASET` falls back to
the documented default. -/
def script (env : List (String × String)) (now : String) (bq : BQ) :
    List Ev × Nat × String :=
  match envLookup env "GCP_PROJECT_ID" with
  | none => ([], 1, "KeyError: \x27GCP_PROJECT_ID\x27")
  | some pid =>
    let ds := (envLookup env "BQ_DATASET").getD "tcg_price_oracle"
    let r := mainRun pid ds now bq
    (r.1, r.2, "")

/-- The files a trace has fully written, in order. -/
def writtenFiles : List Ev → List (String × String)
  | [] => []
  | .wrote p c :: t => (p, c) :: writtenFiles t
  | .query _ :: t => writtenFiles t
  | .partialWrite _ :: t => writtenFiles t

/- ## Supporting lemmas for the claims -/

def objLookup : JValue → String → Option JValue
  | .jobj ms, k => ms.lookup k
  | _, _ => none

theorem encodeRows_length : ∀ {rows : List Row} {its : JItems},
    encodeRows rows = .ok its → its.length = rows.length := by
  intro rows
  induction rows with
  | nil =>
    intro its h
    cases h
    rfl
  | cons r t ih =>
    intro its h
    rw [encodeRows] at h
    rcases hr : encodeRowFields r with e | ms
    · rw [hr] at h; cases h
    · rw [hr] at h
      rcases ht : encodeRows t with e | its'
      · rw [ht] at h; cases h
      · rw [ht] at h
        cases h
        rw [JItems.length, ih ht, List.length_cons]

theorem encodeRows_get : ∀ {rows : List Row} {its : JItems}, encodeRows rows = .ok its →
    ∀ i (hi : i < rows.length), ∃ ms, encodeRowFields (rows.get ⟨i, hi⟩) = .ok ms ∧
      its.get? i = some (.jobj ms) := by
  intro rows
  induction rows with
  | nil =>
    intro its h i hi
    exact absurd hi (by simp)
  | cons r t ih =>
    intro its h i hi
    rw [encodeRows] at h
    rcases hr : encodeRowFields r with e | ms
    · rw [hr] at h; cases h
    · rw [hr] at h
      rcases ht : encodeRows t with e | its'
      · rw [ht] at h; cases h
      · rw [ht] at h
        cases h
        cases i with
        | zero => exact ⟨ms, hr, rfl⟩
        | succ i =>
          have hi' : i < t.length := by simpa using hi
          obtain ⟨ms', h1, h2⟩ := ih ht i hi'
          exact ⟨ms', h1, by simpa [JItems.get?] using h2⟩

/-- The types `_BQEncoder` can serialise: the JSON-native scalars, `Decimal`,
`datetime`, and any other object exposing an `isoformat` attribute. -/
def convertible : PyVal → Bool
  | .pnull => true
  | .pbool _ => true
  | .pint _ => true
  | .pfloat _ => true
  | .pstr _ => true
  | .pdec _ => true
  | .pdatetime _ => true
  | .pother hasIso _ => hasIso

theorem encodePy_error_of_unconvertible {v : PyVal} (h : convertible v = false) :
    ∃ e, encodePy v = .error e := by
  cases v with
  | pother hasIso iso =>
    cases hasIso with
    | true => rw [convertible] at h; cases h
    | false => exact ⟨_, rfl⟩
  | pnull => rw [convertible] at h; cases h
  | pbool b => rw [convertible] at h; cases h
  | pint n => rw [convertible] at h; cases h
  | pfloat r => rw [convertible] at h; cases h
  | pstr s => rw [convertible] at h; cases h
  | pdec d => rw [convertible] at h; cases h
  | pdatetime dt => rw [convertible] at h; cases h

theorem encodeRowFields_error : ∀ {r : Row}, (∃ kv ∈ r, convertible kv.2 = false) →
    ∃ e, encodeRowFields r = .error e := by
  intro r
  induction r with
  | nil =>
    rintro ⟨kv, hmem, _⟩
    simp at hmem
  | cons kv t ih =>
    rintro ⟨kv', hmem, hconv⟩
    obtain ⟨k, v⟩ := kv
    rcases List.mem_cons.mp hmem with rfl | hmem'
    · obtain ⟨e, he⟩ := encodePy_error_of_unconvertible hconv
      exact ⟨e, by rw [encodeRowFields, he]⟩
    · rcases hv : encodePy v with e0 | jv
      · exact ⟨e0, by rw [encodeRowFields, hv]⟩
      · obtain ⟨e, he⟩ := ih ⟨kv', hmem', hconv⟩
        exact ⟨e, by rw [encodeRowFields, hv, he]⟩

theorem encodeRows_error : ∀ {rows : List Row} {r : Row}, r ∈ rows →
    (∃ kv ∈ r, convertible kv.2 = false) →
    ∃ e, encodeRows rows = .error e := by
  intro rows
  induction rows with
  | nil =>
    intro r hmem _
    simp at hmem
  | cons r0 t ih =>
    intro r hmem hbad
    rcases List.mem_cons.mp hmem with rfl | hmem'
    · obtain ⟨e, he⟩ := encodeRowFields_error hbad
      exact ⟨e, by rw [encodeRows, he]⟩
    · rcases hr : encodeRowFields r0 with e0 | ms
      · exact ⟨e0, by rw [encodeRows, hr]⟩
      · obtain ⟨e, he⟩ := ih hmem' hbad
        exact ⟨e, by rw [encodeRows, hr, he]⟩

theorem serializeEnvelope_error {now : String} {rows : List Row} {r : Row}
    (hmem : r ∈ rows) (hbad : ∃ kv ∈ r, convertible kv.2 = false) :
    ∃ e, serializeEnvelope now rows = .error e := by
  obtain ⟨e, he⟩ := encodeRows_error hmem hbad
  exact ⟨e, by rw [serializeEnvelope, envelopeJ, he]⟩

/- ## Claim theorems -/

theorem envelopeJ_last_updated {now : String} {rows : List Row} {j : JValue}
    (h : envelopeJ now rows = .ok j) : objLookup j "last_updated" = some (.jstr now) := by
  rw [envelopeJ] at h
  rcases hr : encodeRows rows with e | its
  · rw [hr] at h; cases h
  · rw [hr] at h
    cases h
    simp [objLookup, JMems.lookup]

set_option maxRecDepth 8000

/-- C1: for every run in which a query returns N rows, the envelope written
for that query has `record_count` equal to N and a `data` array with exactly
N elements; and with N = 0 for both queries the two files are still written,
each with `record_count` 0 and an empty `data` array. -/
theorem C1_envelope_counts :
    (∀ (now : String) (rows : List Row) (j : JValue), envelopeJ now rows = .ok j →
      objLookup j "record_count" = some (.jint (rows.length : Int)) ∧
      ∃ its : JItems, objLookup j "data" = some (.jarr its) ∧ its.length = rows.length) ∧
    (∀ (pid ds now : String) (bq : BQ), bq.card = .ok [] → bq.sets = .ok [] →
      writtenFiles (mainRun pid ds now bq).1 =
        [(OUTPUT_DIR ++ "/card_metrics.json",
          dumpJson (.jobj (.cons "last_updated" (.jstr now)
            (.cons "record_count" (.jint 0) (.cons "data" (.jarr .nil) .nil))))),
         (OUTPUT_DIR ++ "/set_metrics.json",
          dumpJson (.jobj (.cons "last_updated" (.jstr now)
            (.cons "record_count" (.jint 0) (.cons "data" (.jarr .nil) .nil)))))]) := by
  constructor
  · intro now rows j h
    rw [envelopeJ] at h
    rcases hr : encodeRows rows with e | its
    · rw [hr] at h; cases h
    · rw [hr] at h
      cases h
      refine ⟨?_, its, ?_, encodeRows_length hr⟩
      · simp [objLookup, JMems.lookup]
      · simp [objLookup, JMems.lookup]
  · intro pid ds now bq h1 h2
    have hse : serializeEnvelope now [] =
        .ok (dumpJson (.jobj (.cons "last_updated" (.jstr now)
          (.cons "record_count" (.jint 0) (.cons "data" (.jarr .nil) .nil))))) := rfl
    rw [mainRun, h1]
    dsimp only
    rw [hse]
    dsimp only
    rw [h2]
    dsimp only
    rw [hse]
    rfl

theorem C1_envelope_counts_witness :
    (objLookup (.jobj (.cons "last_updated" (.jstr "t")
        (.cons "record_count" (.jint 0) (.cons "data" (.jarr .nil) .nil))))
        "record_count" = some (.jint (([] : List Row).length : Int)) ∧
      ∃ its : JItems, objLookup (.jobj (.cons "last_updated" (.jstr "t")
        (.cons "record_count" (.jint 0) (.cons "data" (.jarr .nil) .nil))))
        "data" = some (.jarr its) ∧ its.length = ([] : List Row).length) ∧
    writtenFiles (mainRun "p" "d" "t" ⟨.ok [], .ok []⟩).1 =
      [(OUTPUT_DIR ++ "/card_metrics.json",
        dumpJson (.jobj (.cons "last_updated" (.jstr "t")
          (.cons "record_count" (.jint 0) (.cons "data" (.jarr .nil) .nil))))),
       (OUTPUT_DIR ++ "/set_metrics.json",
        dumpJson (.jobj (.cons "last_updated" (.jstr "t")
          (.cons "record_count" (.jint 0) (.cons "data" (.jarr .nil) .nil)))))] :=
  ⟨C1_envelope_counts.1 "t" [] _ rfl,
   C1_envelope_counts.2 "p" "d" "t" ⟨.ok [], .ok []⟩ rfl rfl⟩

/-- C2: the JSON-safety conversion maps a `Decimal` to a floating-point JSON
number (`Decimal("12.50")` serialises as the number `12.5`, not an integer or
a string), maps a `datetime` to its ISO-8601 string, and passes integers,
floats, strings, booleans and null through unchanged; the spec's scenario row
encodes exactly as required. -/
theorem C2_encoder_conversions :
    (∀ d : Dec, encodePy (.pdec d) = .ok (.jfloat (pyFloat d.val))) ∧
    encodePy (.pdec ⟨1250, 2⟩) = .ok (.jfloat "12.5") ∧
    (∀ dt : PyDateTime, encodePy (.pdatetime dt) = .ok (.jstr dt.isoformat)) ∧
    (∀ n : Int, encodePy (.pint n) = .ok (.jint n)) ∧
    (∀ r : String, encodePy (.pfloat r) = .ok (.jfloat r)) ∧
    (∀ s : String, encodePy (.pstr s) = .ok (.jstr s)) ∧
    (∀ b : Bool, encodePy (.pbool b) = .ok (.jbool b)) ∧
    encodePy .pnull = .ok .jnull ∧
    encodeRowFields [("set_id", .pstr "SV1"), ("month", .pstr "2024-01"),
        ("card_number", .pstr "001"), ("raw_price", .pdec ⟨1250, 2⟩)] =
      .ok (.cons "set_id" (.jstr "SV1") (.cons "month" (.jstr "2024-01")
        (.cons "card_number" (.jstr "001") (.cons "raw_price" (.jfloat "12.5") .nil)))) :=
  ⟨fun d => rfl, rfl, fun dt => rfl, fun n => rfl, fun r => rfl, fun s => rfl,
    fun b => rfl, rfl, rfl⟩

/-- C3: if `GCP_PROJECT_ID` is absent at startup, the run never begins (empty
event trace), zero files are written, the process exits 1, and the stderr
diagnostic names the missing variable. -/
theorem C3_missing_project_id (env : List (String × String)) (now : String) (bq : BQ)
    (h : envLookup env "GCP_PROJECT_ID" = none) :
    (script env now bq).1 = [] ∧ writtenFiles (script env now bq).1 = [] ∧
    (script env now bq).2.1 = 1 ∧
    (script env now bq).2.2 = "KeyError: \x27GCP_PROJECT_ID\x27" := by
  rw [script, h]
  exact ⟨rfl, rfl, rfl, rfl⟩

theorem C3_missing_project_id_witness :
    envLookup [] "GCP_PROJECT_ID" = none ∧
    ((script [] "t" ⟨.ok [], .ok []⟩).1 = [] ∧
     writtenFiles (script [] "t" ⟨.ok [], .ok []⟩).1 = [] ∧
     (script [] "t" ⟨.ok [], .ok []⟩).2.1 = 1 ∧
     (script [] "t" ⟨.ok [], .ok []⟩).2.2 = "KeyError: \x27GCP_PROJECT_ID\x27") :=
  ⟨rfl, C3_missing_project_id [] "t" ⟨.ok [], .ok []⟩ rfl⟩

/-- C4: if the first job's query fails, the run aborts with exit code 1
having executed only that query - the first file is not written and the
second query never runs; and on the success path execution is strictly
sequential: the first query runs and its file is fully written before the
second query begins. -/
theorem C4_query_failure_aborts :
    (∀ (pid ds now : String) (bq : BQ), bq.card = .error () →
      mainRun pid ds now bq = ([.query (cardMetricsQuery pid ds)], 1)) ∧
    (∀ (pid ds now : String) (bq : BQ) (rows1 : List Row) (c1 : String),
      bq.card = .ok rows1 → serializeEnvelope now rows1 = .ok c1 →
      ∃ t, (mainRun pid ds now bq).1 =
        .query (cardMetricsQuery pid ds) ::
        .wrote (OUTPUT_DIR ++ "/card_metrics.json") c1 ::
        .query (setMetricsQuery pid ds) :: t) := by
  constructor
  · intro pid ds now bq h
    rw [mainRun, h]
  · intro pid ds now bq rows1 c1 h1 h2
    rw [mainRun, h1]
    dsimp only
    rw [h2]
    dsimp only
    rcases h3 : bq.sets with u | rows2
    · exact ⟨[], rfl⟩
    · dsimp only
      rcases h4 : serializeEnvelope now rows2 with e | c2
      · exact ⟨[.partialWrite (OUTPUT_DIR ++ "/set_metrics.json")], rfl⟩
      · exact ⟨[.wrote (OUTPUT_DIR ++ "/set_metrics.json") c2], rfl⟩

theorem C4_query_failure_aborts_witness :
    mainRun "p" "d" "t" ⟨.error (), .error ()⟩ = ([.query (cardMetricsQuery "p" "d")], 1) ∧
    ∃ t, (mainRun "p" "d" "t" ⟨.ok [], .ok []⟩).1 =
      .query (cardMetricsQuery "p" "d") ::
      .wrote (OUTPUT_DIR ++ "/card_metrics.json")
        "\x7b\n  \"last_updated\": \"t\",\n  \"record_count\": 0,\n  \"data\": []\n\x7d" ::
      .query (setMetricsQuery "p" "d") :: t :=
  ⟨C4_query_failure_aborts.1 "p" "d" "t" ⟨.error (), .error ()⟩ rfl,
   C4_query_failure_aborts.2 "p" "d" "t" ⟨.ok [], .ok []⟩ [] _ rfl rfl⟩

/-- C5: in any run that exits 0, both queries succeeded, both files were
written, and the two envelopes carry the identical `last_updated` value -
the single `now` string captured once before the first query. -/
theorem C5_shared_timestamp (pid ds now : String) (bq : BQ) (tr : List Ev)
    (h : mainRun pid ds now bq = (tr, 0)) :
    ∃ rows1 rows2 j1 j2,
      bq.card = .ok rows1 ∧ bq.sets = .ok rows2 ∧
      envelopeJ now rows1 = .ok j1 ∧ envelopeJ now rows2 = .ok j2 ∧
      writtenFiles tr = [(OUTPUT_DIR ++ "/card_metrics.json", dumpJson j1),
        (OUTPUT_DIR ++ "/set_metrics.json", dumpJson j2)] ∧
      objLookup j1 "last_updated" = some (.jstr now) ∧
      objLookup j2 "last_updated" = some (.jstr now) := by
  rw [mainRun] at h
  rcases h1 : bq.card with u | rows1
  · rw [h1] at h
    exact absurd (congrArg Prod.snd h) (by simp)
  · rw [h1] at h
    dsimp only at h
    rcases h2 : serializeEnvelope now rows1 with e | c1
    · rw [h2] at h
      exact absurd (congrArg Prod.snd h) (by simp)
    · rw [h2] at h
      dsimp only at h
      rcases h3 : bq.sets with u | rows2
      · rw [h3] at h
        exact absurd (congrArg Prod.snd h) (by simp)
      · rw [h3] at h
        dsimp only at h
        rcases h4 : serializeEnvelope now rows2 with e | c2
        · rw [h4] at h
          exact absurd (congrArg Prod.snd h) (by simp)
        · rw [h4] at h
          have htr := congrArg Prod.fst h
          dsimp only at htr
          rw [serializeEnvelope] at h2 h4
          rcases he1 : envelopeJ now rows1 with e | j1
          · rw [he1] at h2; cases h2
          · rw [he1] at h2
            cases h2
            rcases he2 : envelopeJ now rows2 with e | j2
            · rw [he2] at h4; cases h4
            · rw [he2] at h4
              cases h4
              refine ⟨rows1, rows2, j1, j2, rfl, rfl, he1, he2, ?_,
                envelopeJ_last_updated he1, envelopeJ_last_updated he2⟩
              rw [← htr]
              rfl

theorem C5_shared_timestamp_witness :
    ∃ rows1 rows2 j1 j2,
      (⟨.ok [], .ok []⟩ : BQ).card = .ok rows1 ∧ (⟨.ok [], .ok []⟩ : BQ).sets = .ok rows2 ∧
      envelopeJ "t" rows1 = .ok j1 ∧ envelopeJ "t" rows2 = .ok j2 ∧
      writtenFiles (mainRun "p" "d" "t" ⟨.ok [], .ok []⟩).1 =
        [(OUTPUT_DIR ++ "/card_metrics.json", dumpJson j1),
         (OUTPUT_DIR ++ "/set_metrics.json", dumpJson j2)] ∧
      objLookup j1 "last_updated" = some (.jstr "t") ∧
      objLookup j2 "last_updated" = some (.jstr "t") :=
  C5_shared_timestamp "p" "d" "t" ⟨.ok [], .ok []⟩
    (mainRun "p" "d" "t" ⟨.ok [], .ok []⟩).1 rfl

/-- C6: a row value of a type the encoder cannot convert (not JSON-native,
not a `Decimal`, and not exposing an `isoformat` attribute) makes
serialisation fail with a `TypeError` rather than being dropped or coerced,
and a run whose first result set contains such a value exits 1 with no
complete file written. -/
theorem C6_unconvertible_fails :
    (∀ v : PyVal, convertible v = false → ∃ e, encodePy v = .error e) ∧
    (∀ (pid ds now : String) (bq : BQ) (rows1 : List Row) (r : Row),
      bq.card = .ok rows1 → r ∈ rows1 → (∃ kv ∈ r, convertible kv.2 = false) →
      (mainRun pid ds now bq).2 = 1 ∧ writtenFiles (mainRun pid ds now bq).1 = []) := by
  constructor
  · intro v h
    exact encodePy_error_of_unconvertible h
  · intro pid ds now bq rows1 r h1 hmem hbad
    obtain ⟨e, he⟩ := serializeEnvelope_error hmem hbad
    rw [mainRun, h1]
    dsimp only
    rw [he]
    exact ⟨rfl, rfl⟩

theorem C6_unconvertible_fails_witness :
    (convertible (.pother false "") = false ∧ ∃ e, encodePy (.pother false "") = .error e) ∧
    ((mainRun "p" "d" "t" ⟨.ok [[("k", .pother false "")]], .ok []⟩).2 = 1 ∧
      writtenFiles (mainRun "p" "d" "t" ⟨.ok [[("k", .pother false "")]], .ok []⟩).1 = []) :=
  ⟨⟨rfl, C6_unconvertible_fails.1 (.pother false "") rfl⟩,
   C6_unconvertible_fails.2 "p" "d" "t" ⟨.ok [[("k", .pother false "")]], .ok []⟩
     [[("k", .pother false "")]] [("k", .pother false "")] rfl (by simp)
     ⟨("k", .pother false ""), by simp, rfl⟩⟩

/-- C7: the `data` array of a written envelope lists the rows in exactly the
order the warehouse returned them - entry `i` is the encoding of row `i` -
with no re-sorting by the exporter. -/
theorem C7_data_order (now : String) (rows : List Row) (j : JValue)
    (h : envelopeJ now rows = .ok j) :
    ∃ its : JItems, objLookup j "data" = some (.jarr its) ∧
      its.length = rows.length ∧
      ∀ i (hi : i < rows.length), ∃ ms,
        encodeRowFields (rows.get ⟨i, hi⟩) = .ok ms ∧ its.get? i = some (.jobj ms) := by
  rw [envelopeJ] at h
  rcases hr : encodeRows rows with e | its
  · rw [hr] at h; cases h
  · rw [hr] at h
    cases h
    refine ⟨its, ?_, encodeRows_length hr, encodeRows_get hr⟩
    simp [objLookup, JMems.lookup]

theorem C7_data_order_witness :
    ∃ its : JItems,
      objLookup (.jobj (.cons "last_updated" (.jstr "t")
          (.cons "record_count" (.jint 1)
            (.cons "data" (.jarr (.cons (.jobj (.cons "a" .jnull .nil)) .nil)) .nil))))
        "data" = some (.jarr its) ∧
      its.length = [[("a", PyVal.pnull)]].length ∧
      ∀ i (hi : i < [[("a", PyVal.pnull)]].length), ∃ ms,
        encodeRowFields ([[("a", PyVal.pnull)]].get ⟨i, hi⟩) = .ok ms ∧
        its.get? i = some (.jobj ms) :=
  C7_data_order "t" [[("a", PyVal.pnull)]] _ rfl

/-- C8: parsing a written output file back and re-serialising it with the
same formatting rules reproduces byte-identical text (for rows whose raw
floats carry canonical repr tokens, which is every float a real run holds). -/
theorem C8_roundtrip (now : String) (rows : List Row) (c : String)
    (hwf : wfRows rows = true) (h : serializeEnvelope now rows = .ok c) :
    ∃ j, parseJson c = some j ∧ dumpJson j = c := by
  rw [serializeEnvelope] at h
  rcases he : envelopeJ now rows with e | j
  · rw [he] at h; cases h
  · rw [he] at h
    cases h
    exact ⟨j, parseJson_dumpJson (wfV_envelopeJ hwf he), rfl⟩

theorem C8_roundtrip_witness :
    wfRows [[("raw_price", PyVal.pdec ⟨1250, 2⟩)]] = true ∧
    ∃ j, parseJson ("\x7b\n  \"last_updated\": \"2026-01-01T00:00:00+00:00\"," ++
        "\n  \"record_count\": 1,\n  \"data\": [\n    \x7b\n      \"raw_price\": 12.5\n    \x7d\n  ]\n\x7d") =
        some j ∧
      dumpJson j = ("\x7b\n  \"last_updated\": \"2026-01-01T00:00:00+00:00\"," ++
        "\n  \"record_count\": 1,\n  \"data\": [\n    \x7b\n      \"raw_price\": 12.5\n    \x7d\n  ]\n\x7d") :=
  ⟨rfl, C8_roundtrip "2026-01-01T00:00:00+00:00" [[("raw_price", PyVal.pdec ⟨1250, 2⟩)]]
    _ rfl rfl⟩

/-- C9: any value that is not JSON-native, not a `Decimal` and not a
`datetime` but exposes an `isoformat` attribute is serialised as the string
`isoformat()` returns - whether or not it is actually a date/time type - and
never raises a serialisation error. -/
theorem C9_isoformat_ducktyping (iso : String) :
    encodePy (.pother true iso) = .ok (.jstr iso) := rfl

/-- C10: writing is deterministic - two runs given equal query results and
the same captured timestamp produce identical event traces, hence
byte-identical file contents (fixed two-space indentation, key order as
returned, no environment dependence). -/
theorem C10_determinism (pid ds now : String) (bq1 bq2 : BQ)
    (h1 : bq1.card = bq2.card) (h2 : bq1.sets = bq2.sets) :
    mainRun pid ds now bq1 = mainRun pid ds now bq2 := by
  cases bq1
  cases bq2
  dsimp only at h1 h2
  rw [h1, h2]

theorem C10_determinism_witness :
    mainRun "p" "d" "t" ⟨.ok [], .ok []⟩ = mainRun "p" "d" "t" ⟨.ok [], .ok []⟩ :=
  C10_determinism "p" "d" "t" ⟨.ok [], .ok []⟩ ⟨.ok [], .ok []⟩ rfl rfl
